import Mathlib

/-!
Verification of the labeling and custom-model subsystem of the tweet sentiment
analysis backend (`app/services/label_service.py`, `app/services/train_service.py`,
`app/services/cleaning_service.py`).

Embedding conventions:
* Python strings are Lean `String`s; `str.lower()` is modelled as a character-wise
  `Char.toLower` (the texts involved are ASCII), `str.split()` as splitting on
  whitespace runs, and the `in` substring test as an infix test on character lists.
* Python floats are modelled as exact rationals `ℚ`.  Every floating-point value
  produced by the code here is a quotient of small integers (Jaccard similarities,
  class priors, Laplace-smoothed likelihoods), and the code only compares such
  values, so the exact-rational model reflects the comparisons faithfully;
  `np.log`-domain additions are modelled multiplicatively (log is strictly
  monotone on the positive values involved).
* Python dicts appearing here are insertion-ordered association lists;
  `collections.Counter` counts are `List.count`.
* A pandas cell is `Option String`: `none` is a null (`NaN`) cell, `some s` a
  value whose `astype(str)` form is `s`; `astype(str)` renders a null cell as
  the three-character string "nan".
-/

/-- Python `str.split()` on a list of characters: split on whitespace runs,
dropping empty pieces.  `acc` holds the characters of the word currently
being scanned. -/
def splitWsAux : List Char → List Char → List String
  | [], acc => if acc.isEmpty then [] else [String.mk acc]
  | c :: cs, acc =>
    if c.isWhitespace then
      if acc.isEmpty then splitWsAux cs [] else String.mk acc :: splitWsAux cs []
    else
      splitWsAux cs (acc ++ [c])

/-- `text.lower().split()` — the tokenizer used by `jaccard_distance` (both in
`label_service.py` and `train_service.py`) and by `CustomNaiveBayes._tokenize`
in unigram mode. -/
def pyLowerSplit (s : String) : List String :=
  splitWsAux (s.data.map Char.toLower) []

/-- `set(tweet.lower().split())` — the token set of a tweet. -/
def tokenSet (s : String) : Finset String :=
  (pyLowerSplit s).toFinset

/-- `jaccard_distance` (`label_service.py` lines 27–49 and the identical copy in
`train_service.py` lines 144–156): `0` when both token sets are empty, otherwise
`1 - |∩| / |∪|`. -/
def jaccardDistance (tweet1 tweet2 : String) : ℚ :=
  if tokenSet tweet1 = ∅ ∧ tokenSet tweet2 = ∅ then 0
  else 1 - ((tokenSet tweet1 ∩ tokenSet tweet2).card : ℚ) /
    ((tokenSet tweet1 ∪ tokenSet tweet2).card : ℚ)

theorem jaccardDistance_comm (a b : String) :
    jaccardDistance a b = jaccardDistance b a := by
  unfold jaccardDistance
  rw [Finset.inter_comm, Finset.union_comm]
  by_cases h : tokenSet a = ∅ ∧ tokenSet b = ∅
  · rw [if_pos h, if_pos ⟨h.2, h.1⟩]
  · rw [if_neg h, if_neg (fun hc => h ⟨hc.2, hc.1⟩)]

theorem jaccardDistance_self (a : String) : jaccardDistance a a = 0 := by
  unfold jaccardDistance
  by_cases h : tokenSet a = ∅
  · simp [h]
  · have hcard : (tokenSet a).card ≠ 0 := by
      simpa [Finset.card_eq_zero] using h
    have hq : ((tokenSet a).card : ℚ) ≠ 0 := by exact_mod_cast hcard
    simp [h, Finset.inter_self, Finset.union_self, div_self hq]

/-- C7: `jaccard_distance` is symmetric, zero on identical inputs, zero on two
empty-token-set inputs, and its denominator (the union size) is positive in
every case where the division is actually performed — no division by zero. -/
theorem C7_jaccard_symmetric_zero_safe (a b : String) :
    jaccardDistance a b = jaccardDistance b a ∧
    jaccardDistance a a = 0 ∧
    jaccardDistance "" "" = 0 ∧
    (¬(tokenSet a = ∅ ∧ tokenSet b = ∅) →
      0 < (((tokenSet a ∪ tokenSet b).card : ℚ))) := by
  refine ⟨jaccardDistance_comm a b, jaccardDistance_self a, jaccardDistance_self "", ?_⟩
  intro h
  have hne : tokenSet a ∪ tokenSet b ≠ ∅ := by
    intro hu
    rcases Finset.union_eq_empty.mp hu with ⟨h1, h2⟩
    exact h ⟨h1, h2⟩
  have hpos : 0 < (tokenSet a ∪ tokenSet b).card :=
    Finset.card_pos.mpr (Finset.nonempty_iff_ne_empty.mpr hne)
  exact_mod_cast hpos

/-- Witness for C7 at concrete inputs. -/
theorem C7_jaccard_symmetric_zero_safe_witness :
    jaccardDistance "a b" "b c" = jaccardDistance "b c" "a b" ∧
    jaccardDistance "a b" "a b" = 0 ∧
    jaccardDistance "" "" = 0 ∧
    (0 < (((tokenSet "a b" ∪ tokenSet "b c").card : ℚ))) := by
  obtain ⟨h1, h2, h3, h4⟩ := C7_jaccard_symmetric_zero_safe "a b" "b c"
  exact ⟨h1, h2, h3, h4 (by decide)⟩

/-- One step of Python's `max(iterable, key=...)` scan: the running best is
replaced only when the new item's key is strictly greater, so the first
maximal item wins. -/
def foldBest {α β : Type} [LinearOrder β] (best : α × β) (l : List (α × β)) : α × β :=
  l.foldl (fun b q => if b.2 < q.2 then q else b) best

/-- Python's `max(items, key=lambda p: p.2)`: `none` on an empty list
(Python raises `ValueError` there), otherwise the first item attaining the
maximal key. -/
def pyMax {α β : Type} [LinearOrder β] : List (α × β) → Option (α × β)
  | [] => none
  | p :: rest => some (foldBest p rest)

theorem foldBest_of_le {α β : Type} [LinearOrder β] (b : α × β) (l : List (α × β))
    (h : ∀ p ∈ l, p.2 ≤ b.2) : foldBest b l = b := by
  induction l with
  | nil => rfl
  | cons q t ih =>
    have hq : q.2 ≤ b.2 := h q (List.mem_cons_self q t)
    have : ¬ b.2 < q.2 := not_lt.mpr hq
    simp only [foldBest, List.foldl_cons, if_neg this]
    exact ih (fun p hp => h p (List.mem_cons_of_mem q hp))

theorem foldBest_lt {α β : Type} [LinearOrder β] (v : β) (l : List (α × β)) :
    ∀ b : α × β, b.2 < v → (∀ p ∈ l, p.2 < v) → (foldBest b l).2 < v := by
  induction l with
  | nil => intro b hb _; exact hb
  | cons q t ih =>
    intro b hb h
    simp only [foldBest, List.foldl_cons]
    by_cases hlt : b.2 < q.2
    · simp only [if_pos hlt]
      exact ih q (h q (List.mem_cons_self q t)) (fun p hp => h p (List.mem_cons_of_mem q hp))
    · simp only [if_neg hlt]
      exact ih b hb (fun p hp => h p (List.mem_cons_of_mem q hp))

/-- `max(items, key=val)` returns the first item attaining the maximum:
items strictly smaller before it, items no larger after it. -/
theorem pyMax_first {α β : Type} [LinearOrder β] (pre post : List (α × β)) (x : α) (v : β)
    (hpre : ∀ p ∈ pre, p.2 < v) (hpost : ∀ p ∈ post, p.2 ≤ v) :
    pyMax (pre ++ (x, v) :: post) = some (x, v) := by
  cases pre with
  | nil =>
    simp only [List.nil_append, pyMax]
    rw [foldBest_of_le _ _ hpost]
  | cons p0 pre' =>
    simp only [List.cons_append, pyMax, Option.some.injEq]
    have h0 : p0.2 < v := hpre p0 (List.mem_cons_self p0 pre')
    have hpre' : ∀ p ∈ pre', p.2 < v := fun p hp => hpre p (List.mem_cons_of_mem p0 hp)
    unfold foldBest
    rw [List.foldl_append]
    have hmid : (List.foldl (fun b q => if b.2 < q.2 then q else b) p0 pre').2 < v :=
      foldBest_lt v pre' p0 h0 hpre'
    simp only [List.foldl_cons, if_pos hmid]
    exact foldBest_of_le (x, v) post hpost

/-- `max(items, key=val)` returns an item that is maximal and present
(or equal to the seed). -/
theorem foldBest_spec {α β : Type} [LinearOrder β] (l : List (α × β)) :
    ∀ b : α × β, ((foldBest b l = b ∨ foldBest b l ∈ l) ∧
      b.2 ≤ (foldBest b l).2 ∧ ∀ p ∈ l, p.2 ≤ (foldBest b l).2) := by
  induction l with
  | nil => intro b; exact ⟨Or.inl rfl, le_refl _, by simp⟩
  | cons q t ih =>
    intro b
    simp only [foldBest, List.foldl_cons]
    by_cases hlt : b.2 < q.2
    · simp only [if_pos hlt]
      obtain ⟨hm, hle, hall⟩ := ih q
      refine ⟨?_, ?_, ?_⟩
      · rcases hm with h | h
        · refine Or.inr ?_
          simp only [foldBest] at h
          rw [h]
          exact List.mem_cons_self q t
        · exact Or.inr (List.mem_cons_of_mem q h)
      · exact le_trans (le_of_lt hlt) hle
      · intro p hp
        rcases List.mem_cons.mp hp with h | h
        · exact h ▸ hle
        · exact hall p h
    · simp only [if_neg hlt]
      obtain ⟨hm, hle, hall⟩ := ih b
      refine ⟨?_, hle, ?_⟩
      · rcases hm with h | h
        · exact Or.inl h
        · exact Or.inr (List.mem_cons_of_mem q h)
      · intro p hp
        rcases List.mem_cons.mp hp with h | h
        · subst h; exact le_trans (not_lt.mp hlt) hle
        · exact hall p h

theorem jaccardDistance_nonneg (a b : String) : 0 ≤ jaccardDistance a b := by
  unfold jaccardDistance
  by_cases h : tokenSet a = ∅ ∧ tokenSet b = ∅
  · simp [h]
  · rw [if_neg h]
    have hsub : tokenSet a ∩ tokenSet b ⊆ tokenSet a ∪ tokenSet b :=
      le_trans Finset.inter_subset_left Finset.subset_union_left
    have hcard : (tokenSet a ∩ tokenSet b).card ≤ (tokenSet a ∪ tokenSet b).card :=
      Finset.card_le_card hsub
    have hq : ((tokenSet a ∩ tokenSet b).card : ℚ) ≤ ((tokenSet a ∪ tokenSet b).card : ℚ) := by
      exact_mod_cast hcard
    rcases Nat.eq_zero_or_pos (tokenSet a ∪ tokenSet b).card with hu | hu
    · simp [hu]
    · have hupos : 0 < ((tokenSet a ∪ tokenSet b).card : ℚ) := by exact_mod_cast hu
      have : ((tokenSet a ∩ tokenSet b).card : ℚ) / ((tokenSet a ∪ tokenSet b).card : ℚ) ≤ 1 :=
        (div_le_one hupos).mpr hq
      linarith

/-!  `CustomKNN` (`train_service.py` lines 159–207).

The knowledge base is `list(zip(X_train, y_train))`, a list of
(tweet text, label) pairs; labels are `ℤ`.

`predict_one` first fills `distances`, a dict keyed by tweet text with value
`jaccard_distance(tweet, new_tweet)`; since the value is a function of the key
alone, looking an entry's distance up in that dict is the same as computing it
directly, which is how the embedding below reads it.

Python's `heapq` min-heap over `(negated distance, label)` tuples is modelled
as a list kept in ascending order: `pqPush` inserts keeping order, `pqPop`
removes the head (the minimum).  `heapq.heappop` is specified to return the
smallest element, so the two agree; in the runs reasoned about below the heap
never holds more than one element, where the model and CPython's array heap
coincide exactly (push onto an empty heap and pop of a singleton involve no
sift comparisons at all). -/

/-- Python tuple comparison `(ℚ, ℤ) < (ℚ, ℤ)` — lexicographic. -/
def tupLt (p q : ℚ × ℤ) : Bool :=
  decide (p.1 < q.1 ∨ (p.1 = q.1 ∧ p.2 < q.2))

/-- `heapq.heappush`, modelled as ordered insertion. -/
def pqPush (p : ℚ × ℤ) : List (ℚ × ℤ) → List (ℚ × ℤ)
  | [] => [p]
  | q :: t => if tupLt p q then p :: q :: t else q :: pqPush p t

/-- `heapq.heappop`: the smallest element and the rest; `none` when the heap
is empty (Python raises `IndexError` there). -/
def pqPop : List (ℚ × ℤ) → Option ((ℚ × ℤ) × List (ℚ × ℤ))
  | [] => none
  | q :: t => some (q, t)

/-- The neighbor scan of `CustomKNN.predict_one`: for each knowledge-base
entry, push `(-distance, label)` while the heap holds fewer than `k` items;
otherwise pop the current top and keep whichever of the two is closer
(strict comparison `-top_distance > new_distance`, so on ties the incumbent
stays).  The `none` branch of `pqPop` can only fire when `k = 0`, where the
Python code raises `IndexError` out of `heappop`. -/
def knnScan (k : ℕ) (query : String) : List (String × ℤ) → List (ℚ × ℤ) → List (ℚ × ℤ)
  | [], h => h
  | (tweet, c) :: rest, h =>
    if h.length < k then
      knnScan k query rest (pqPush (-(jaccardDistance tweet query), c) h)
    else
      match pqPop h with
      | none => knnScan k query rest h
      | some ((topNegD, topC), h') =>
        if -topNegD > jaccardDistance tweet query then
          knnScan k query rest (pqPush (-(jaccardDistance tweet query), c) h')
        else
          knnScan k query rest (pqPush (topNegD, topC) h')

/-- `frequency[c] += 1` on an insertion-ordered association list
(`collections.defaultdict(int)`). -/
def bumpKey (c : ℤ) : List (ℤ × ℕ) → List (ℤ × ℕ)
  | [] => [(c, 1)]
  | (d, n) :: t => if d = c then (d, n + 1) :: t else (d, n) :: bumpKey c t

/-- The `frequency` dict built by iterating over the heap. -/
def freqOf (h : List (ℚ × ℤ)) : List (ℤ × ℕ) :=
  h.foldl (fun acc p => bumpKey p.2 acc) []

/-- The majority-vote loop: `majority = -1; result = 0`, take each class
whose count strictly exceeds the running majority.  Since every count is
`≥ 1 > -1` the first class always replaces the sentinel, so the result is the
first class attaining the maximal count — exactly `pyMax` — and `0` when the
frequency dict is empty. -/
def knnMajority (freq : List (ℤ × ℕ)) : ℤ :=
  match pyMax freq with
  | none => 0
  | some (c, _) => c

/-- `CustomKNN.predict_one` for a model with knowledge base `kb` and
parameter `k`. -/
def knnPredictOne (k : ℕ) (kb : List (String × ℤ)) (query : String) : ℤ :=
  knnMajority (freqOf (knnScan k query kb []))

/-- With `k = 1` the heap is a singleton after the first entry and the scan is
a strict-improvement fold: the incumbent is replaced exactly when the new
entry is strictly closer. -/
def knnBest1 (query : String) (acc : ℚ × ℤ) (entries : List (String × ℤ)) : ℚ × ℤ :=
  entries.foldl
    (fun b e => if -b.1 > jaccardDistance e.1 query then (-(jaccardDistance e.1 query), e.2) else b)
    acc

theorem knnScan_one (query : String) (entries : List (String × ℤ)) :
    ∀ acc : ℚ × ℤ, knnScan 1 query entries [acc] = [knnBest1 query acc entries] := by
  induction entries with
  | nil => intro acc; rfl
  | cons e rest ih =>
    intro acc
    obtain ⟨tweet, c⟩ := e
    simp only [knnScan, List.length_cons, List.length_nil, Nat.lt_irrefl, if_false, pqPop]
    by_cases hlt : -acc.1 > jaccardDistance tweet query
    · simp only [if_pos hlt, pqPush, knnBest1, List.foldl_cons]
      exact ih _
    · simp only [if_neg hlt, pqPush, knnBest1, List.foldl_cons]
      have := ih acc
      simp only [knnBest1] at this
      simpa [if_neg hlt] using this

theorem knnBest1_spec (query : String) (entries : List (String × ℤ)) :
    ∀ acc : ℚ × ℤ,
      (knnBest1 query acc entries = acc ∨
        ∃ e ∈ entries, knnBest1 query acc entries = (-(jaccardDistance e.1 query), e.2)) ∧
      (-(knnBest1 query acc entries).1 ≤ -acc.1) ∧
      (∀ e ∈ entries, -(knnBest1 query acc entries).1 ≤ jaccardDistance e.1 query) := by
  induction entries with
  | nil => intro acc; exact ⟨Or.inl rfl, le_refl _, by simp⟩
  | cons e rest ih =>
    intro acc
    simp only [knnBest1, List.foldl_cons]
    by_cases hlt : -acc.1 > jaccardDistance e.1 query
    · simp only [if_pos hlt]
      obtain ⟨hm, hle, hall⟩ := ih (-(jaccardDistance e.1 query), e.2)
      refine ⟨?_, ?_, ?_⟩
      · rcases hm with h | ⟨e', he', h⟩
        · exact Or.inr ⟨e, List.mem_cons_self e rest, h⟩
        · exact Or.inr ⟨e', List.mem_cons_of_mem e he', h⟩
      · calc -(knnBest1 query (-(jaccardDistance e.1 query), e.2) rest).1
            ≤ -(-(jaccardDistance e.1 query), e.2).1 := hle
          _ ≤ -acc.1 := by simpa using le_of_lt hlt
      · intro e' he'
        rcases List.mem_cons.mp he' with h | h
        · subst h; simpa using hle
        · exact hall e' h
    · simp only [if_neg hlt]
      obtain ⟨hm, hle, hall⟩ := ih acc
      refine ⟨?_, hle, ?_⟩
      · rcases hm with h | ⟨e', he', h⟩
        · exact Or.inl h
        · exact Or.inr ⟨e', List.mem_cons_of_mem e he', h⟩
      · intro e' he'
        rcases List.mem_cons.mp he' with h | h
        · subst h
          exact le_trans hle (le_of_not_lt hlt)
        · exact hall e' h

theorem freqOf_singleton (p : ℚ × ℤ) : freqOf [p] = [(p.2, 1)] := rfl

theorem knnMajority_singleton (c : ℤ) (n : ℕ) : knnMajority [(c, n)] = c := rfl

/-- C3 (amended): with `k = 1`, if the knowledge base contains the query text
verbatim and every knowledge-base entry at Jaccard distance `0` from the query
carries the same label `l`, then `predict_one` returns `l`.  (The amendment —
restricting to knowledge bases where all zero-distance entries agree — is
forced: when several entries are at distance `0` with different labels the
scan keeps the first of them, not necessarily the exact duplicate; see the
counterexample.) -/
theorem C3_knn_k1_exact_duplicate (kb : List (String × ℤ)) (query : String) (l : ℤ)
    (hmem : (query, l) ∈ kb)
    (hzero : ∀ p ∈ kb, jaccardDistance p.1 query = 0 → p.2 = l) :
    knnPredictOne 1 kb query = l := by
  cases kb with
  | nil => cases hmem
  | cons e0 rest =>
    obtain ⟨t0, c0⟩ := e0
    have hscan : knnScan 1 query ((t0, c0) :: rest) [] =
        [knnBest1 query (-(jaccardDistance t0 query), c0) rest] := by
      simp only [knnScan, List.length_nil, Nat.zero_lt_one, if_true, pqPush]
      exact knnScan_one query rest _
    obtain ⟨hm, hle0, hall⟩ := knnBest1_spec query rest (-(jaccardDistance t0 query), c0)
    set r := knnBest1 query (-(jaccardDistance t0 query), c0) rest with hr
    -- the result entry comes from the knowledge base
    have hentry : ∃ e ∈ (t0, c0) :: rest, r = (-(jaccardDistance e.1 query), e.2) := by
      rcases hm with h | ⟨e, he, h⟩
      · exact ⟨(t0, c0), List.mem_cons_self _ _, h⟩
      · exact ⟨e, List.mem_cons_of_mem _ he, h⟩
    -- the result distance is minimal over the whole knowledge base
    have hmin : ∀ e ∈ (t0, c0) :: rest, -r.1 ≤ jaccardDistance e.1 query := by
      intro e he
      rcases List.mem_cons.mp he with h | h
      · subst h; simpa using hle0
      · exact hall e h
    obtain ⟨e, hekb, her⟩ := hentry
    have hrdist : -r.1 = jaccardDistance e.1 query := by rw [her]; simp
    have hq0 : jaccardDistance query query = 0 := jaccardDistance_self query
    have hle : -r.1 ≤ 0 := by
      have := hmin (query, l) hmem
      simpa [hq0] using this
    have hge : 0 ≤ -r.1 := by
      rw [hrdist]; exact jaccardDistance_nonneg e.1 query
    have hdist0 : jaccardDistance e.1 query = 0 := by
      rw [← hrdist]; exact le_antisymm hle hge
    have hlabel : e.2 = l := hzero e hekb hdist0
    have hr2 : r.2 = l := by rw [her]; exact hlabel
    unfold knnPredictOne
    rw [hscan, freqOf_singleton, knnMajority_singleton, hr2]

/-- Witness for C3 at a concrete input. -/
theorem C3_knn_k1_exact_duplicate_witness :
    knnPredictOne 1 [("nice day", 4)] "nice day" = 4 :=
  C3_knn_k1_exact_duplicate [("nice day", 4)] "nice day" 4
    (by decide) (by intro p hp _; rcases List.mem_singleton.mp hp; rfl)

theorem jaccardDistance_eq_zero_of_tokenSet_eq {a b : String}
    (h : tokenSet a = tokenSet b) : jaccardDistance a b = 0 := by
  unfold jaccardDistance
  rw [h]
  by_cases hb : tokenSet b = ∅
  · simp [hb]
  · have hcard : (tokenSet b).card ≠ 0 := by
      simpa [Finset.card_eq_zero] using hb
    have hq : ((tokenSet b).card : ℚ) ≠ 0 := by exact_mod_cast hcard
    simp [hb, Finset.inter_self, Finset.union_self, div_self hq]

/-- C3 counterexample: the claim as stated — "`predict_one` returns the exact
duplicate's label" — is false.  `"b a"` has the same token set as the query
`"a b"`, hence Jaccard distance `0`, and being scanned first it is kept over
the exact duplicate `("a b", 4)` (the replacement test is strict); the
prediction is `0`, not the duplicate's label `4`. -/
theorem C3_counterexample :
    knnPredictOne 1 [("b a", 0), ("a b", 4)] "a b" = 0 ∧
    ("a b", (4 : ℤ)) ∈ [("b a", (0 : ℤ)), ("a b", 4)] ∧
    (0 : ℤ) ≠ 4 := by
  refine ⟨?_, by decide, by decide⟩
  have h1 : jaccardDistance "b a" "a b" = 0 :=
    jaccardDistance_eq_zero_of_tokenSet_eq (by decide)
  have h2 : jaccardDistance "a b" "a b" = 0 := jaccardDistance_self _
  simp [knnPredictOne, knnScan, pqPop, h1, h2, pqPush, freqOf, bumpKey,
    knnMajority, pyMax, foldBest]

/-- C10: `predict_one` on a model whose knowledge base is empty (fit on empty
training data, or never fit) returns the default label `0` for every `k ≥ 1`
and every query: the scan leaves the heap empty, the frequency dict stays
empty, and the majority loop never replaces the initial `result = 0`. -/
theorem C10_knn_empty_kb (k : ℕ) (query : String) (hk : 1 ≤ k) :
    knnPredictOne k [] query = 0 := rfl

/-- Witness for C10 at a concrete input. -/
theorem C10_knn_empty_kb_witness :
    1 ≤ 5 ∧ knnPredictOne 5 [] "hello world" = 0 :=
  ⟨by decide, C10_knn_empty_kb 5 "hello world" (by decide)⟩

/-!  `CustomNaiveBayes` (`train_service.py` lines 214–301).

The fitted state is modelled by the quantities the Python object stores:
the insertion-ordered class list (`class_prior` keys), the per-class document
counts behind the priors, the vocabulary, and the per-class word/total counts
behind the Laplace-smoothed likelihood table `Pxy`.  The Python code stores
`np.log` of the prior and of each likelihood and adds them; since `log` is
strictly monotone the induced ordering of class scores is that of the products
`prior · Π likelihood`, which is what the `ℚ`-valued `nbScore` below computes
(theorem `C9_nb_score_formula_and_oov` makes the correspondence with the
log-domain formula explicit). -/

/-- First-occurrence deduplication: the element order that Python dict keys /
`collections.Counter` keys acquire.  (Python `set` iteration order is
unspecified; every quantity derived from `pyDedup` below is independent of
the order, only membership and length matter.) -/
def pyDedupAux {α : Type} [DecidableEq α] : List α → List α → List α
  | [], _ => []
  | a :: l, seen => if a ∈ seen then pyDedupAux l seen else a :: pyDedupAux l (a :: seen)

def pyDedup {α : Type} [DecidableEq α] (l : List α) : List α := pyDedupAux l []

theorem mem_pyDedupAux {α : Type} [DecidableEq α] (x : α) :
    ∀ (l seen : List α), x ∈ pyDedupAux l seen ↔ x ∈ l ∧ x ∉ seen := by
  intro l
  induction l with
  | nil => intro seen; simp [pyDedupAux]
  | cons a t ih =>
    intro seen
    by_cases ha : a ∈ seen
    · rw [pyDedupAux, if_pos ha, ih]
      constructor
      · rintro ⟨hx, hs⟩; exact ⟨List.mem_cons_of_mem a hx, hs⟩
      · rintro ⟨hx, hs⟩
        rcases List.mem_cons.mp hx with h | h
        · exact absurd (h ▸ ha) hs
        · exact ⟨h, hs⟩
    · rw [pyDedupAux, if_neg ha]
      constructor
      · intro hx
        rcases List.mem_cons.mp hx with h | h
        · exact ⟨h ▸ List.mem_cons_self a t, h ▸ ha⟩
        · obtain ⟨h1, h2⟩ := (ih (a :: seen)).mp h
          exact ⟨List.mem_cons_of_mem a h1, fun hs => h2 (List.mem_cons_of_mem a hs)⟩
      · rintro ⟨hx, hs⟩
        rcases List.mem_cons.mp hx with h | h
        · exact h ▸ List.mem_cons_self x _
        · by_cases hxa : x = a
          · exact hxa ▸ List.mem_cons_self a _
          · refine List.mem_cons_of_mem a ((ih (a :: seen)).mpr ⟨h, ?_⟩)
            intro hcon
            rcases List.mem_cons.mp hcon with h' | h'
            · exact hxa h'
            · exact hs h'

theorem mem_pyDedup {α : Type} [DecidableEq α] (x : α) (l : List α) :
    x ∈ pyDedup l ↔ x ∈ l := by
  rw [pyDedup, mem_pyDedupAux]
  simp

theorem pyDedupAux_nodup {α : Type} [DecidableEq α] :
    ∀ (l seen : List α), (pyDedupAux l seen).Nodup := by
  intro l
  induction l with
  | nil => intro seen; simp [pyDedupAux]
  | cons a t ih =>
    intro seen
    by_cases ha : a ∈ seen
    · rw [pyDedupAux, if_pos ha]; exact ih seen
    · rw [pyDedupAux, if_neg ha]
      refine List.nodup_cons.mpr ⟨?_, ih (a :: seen)⟩
      intro hmem
      exact ((mem_pyDedupAux a t (a :: seen)).mp hmem).2 (List.mem_cons_self a seen)

theorem pyDedup_nodup {α : Type} [DecidableEq α] (l : List α) : (pyDedup l).Nodup :=
  pyDedupAux_nodup l []

/-- `CustomNaiveBayes.__init__` options: the `ngram` and `feature_rep`
strings (any string other than "bigram"/"trigram" tokenizes like "unigram",
and any string other than "binary" counts like "count"). -/
inductive Ngram | unigram | bigram | trigram
deriving DecidableEq

inductive FeatureRep | count | binary
deriving DecidableEq

/-- The `f"{words[i]}_{words[i+1]}"` adjacent-pair tokens. -/
def adjacentPairs : List String → List String
  | a :: b :: rest => (a ++ "_" ++ b) :: adjacentPairs (b :: rest)
  | _ => []

/-- The `f"{words[i]}_{words[i+1]}_{words[i+2]}"` adjacent-triple tokens. -/
def adjacentTriples : List String → List String
  | a :: b :: c :: rest => (a ++ "_" ++ b ++ "_" ++ c) :: adjacentTriples (b :: c :: rest)
  | _ => []

/-- `CustomNaiveBayes._tokenize`: lowercase whitespace words, plus the
adjacent pairs in bigram mode, plus pairs and triples in trigram mode. -/
def nbTokenize (ng : Ngram) (text : String) : List String :=
  match ng with
  | .unigram => pyLowerSplit text
  | .bigram => pyLowerSplit text ++ adjacentPairs (pyLowerSplit text)
  | .trigram => pyLowerSplit text ++ adjacentPairs (pyLowerSplit text)
      ++ adjacentTriples (pyLowerSplit text)

/-- The per-document token list actually counted/scored:
`tokens = list(set(tokens))` in binary mode, the raw token list otherwise. -/
def nbProcTokens (ng : Ngram) (fr : FeatureRep) (text : String) : List String :=
  match fr with
  | .count => nbTokenize ng text
  | .binary => pyDedup (nbTokenize ng text)

/-- All tokens contributed to class `c` by the training loop
`for text, c in zip(X_train, y_train): for word in tokens: ...`:
the concatenation of the processed token lists of the documents labelled `c`.
`word_counts[c][word]` is the count of `word` in this list and
`total_words[c]` is its length. -/
def classTokens (ng : Ngram) (fr : FeatureRep) (X : List String) (y : List ℤ) (c : ℤ) :
    List String :=
  (((X.zip y).filter (fun p => p.2 = c)).map (fun p => nbProcTokens ng fr p.1)).flatten

/-- The fitted state of `CustomNaiveBayes`. -/
structure NBModel where
  ngram : Ngram
  featureRep : FeatureRep
  /-- `class_prior` keys in insertion order (first occurrence in `y_train`). -/
  classes : List ℤ
  /-- `len(y_train)`. -/
  totalSamples : ℕ
  /-- `class_counts[c]`. -/
  classCount : ℤ → ℕ
  /-- `self.vocabulary` (distinct tokens across all training texts). -/
  vocab : List String
  /-- `word_counts[c][word]`. -/
  wordCount : ℤ → String → ℕ
  /-- `total_words[c]`. -/
  totalWords : ℤ → ℕ

/-- `CustomNaiveBayes.fit` (`train_service.py` lines 244–281). -/
def nbFit (ng : Ngram) (fr : FeatureRep) (X : List String) (y : List ℤ) : NBModel :=
  { ngram := ng
    featureRep := fr
    classes := pyDedup y
    totalSamples := y.length
    classCount := fun c => y.count c
    vocab := pyDedup ((X.map (nbTokenize ng)).flatten)
    wordCount := fun c w => (classTokens ng fr X y c).count w
    totalWords := fun c => (classTokens ng fr X y c).length }

/-- `class_counts[c] / total_samples` — the prior whose `np.log` the code
stores in `self.class_prior[c]`. -/
def nbPrior (m : NBModel) (c : ℤ) : ℚ :=
  (m.classCount c : ℚ) / (m.totalSamples : ℚ)

/-- `(word_counts[c][word] + 1) / (total_words[c] + V)` — the Laplace-smoothed
likelihood whose `np.log` the code stores in `self.Pxy[c][word]`. -/
def nbLik (m : NBModel) (c : ℤ) (w : String) : ℚ :=
  ((m.wordCount c w + 1 : ℕ) : ℚ) / ((m.totalWords c + m.vocab.length : ℕ) : ℚ)

/-- The class score of `predict_one` in product form: the code initializes
`log_prob = class_prior[c]` and adds `Pxy[c][word]` for each token present in
the likelihood table (whose key set is the vocabulary); tokens outside the
vocabulary are skipped.  Exponentiated, that is the product below. -/
def nbScore (m : NBModel) (c : ℤ) (text : String) : ℚ :=
  nbPrior m c *
    ((nbProcTokens m.ngram m.featureRep text).map
      (fun w => if w ∈ m.vocab then nbLik m c w else 1)).prod

/-- The `scores` dict of `predict_one`, keyed in `class_prior` order. -/
def nbScores (m : NBModel) (text : String) : List (ℤ × ℚ) :=
  m.classes.map (fun c => (c, nbScore m c text))

/-- `CustomNaiveBayes.predict_one`: `max(scores, key=scores.get)`.
(On a never-fitted model `class_prior` is empty and Python's `max` raises
`ValueError`; that arm is mapped to `0` and is not used by any theorem.) -/
def nbPredictOne (m : NBModel) (text : String) : ℤ :=
  match pyMax (nbScores m text) with
  | none => 0
  | some (c, _) => c

theorem classTokens_subset_vocab (ng : Ngram) (fr : FeatureRep) (X : List String)
    (y : List ℤ) (c : ℤ) (w : String) (hw : w ∈ classTokens ng fr X y c) :
    w ∈ (nbFit ng fr X y).vocab := by
  simp only [nbFit, classTokens] at hw ⊢
  rw [mem_pyDedup, List.mem_flatten]
  rw [List.mem_flatten] at hw
  obtain ⟨l, hl, hwl⟩ := hw
  rw [List.mem_map] at hl
  obtain ⟨p, hp, rfl⟩ := hl
  have hpz : p ∈ X.zip y := List.mem_of_mem_filter hp
  have hp1 : p.1 ∈ X := by
    obtain ⟨u, v⟩ := p
    exact (List.of_mem_zip hpz).1
  refine ⟨nbTokenize ng p.1, List.mem_map_of_mem _ hp1, ?_⟩
  cases fr with
  | count => exact hwl
  | binary => exact (mem_pyDedup w _).mp hwl

theorem list_prod_lt_prod (l : List String) (f g : String → ℚ)
    (hne : l ≠ []) (h : ∀ x ∈ l, 0 < g x ∧ g x < f x) :
    (l.map g).prod < (l.map f).prod := by
  induction l with
  | nil => exact absurd rfl hne
  | cons x t ih =>
    obtain ⟨hgx, hfx⟩ := h x (List.mem_cons_self _ _)
    cases t with
    | nil => simpa using hfx
    | cons x2 t2 =>
      have ht : ∀ z ∈ x2 :: t2, 0 < g z ∧ g z < f z :=
        fun z hz => h z (List.mem_cons_of_mem _ hz)
      have hrec := ih (by simp) ht
      have hgt : 0 < ((x2 :: t2).map g).prod := by
        refine List.prod_pos ?_
        intro z hz
        rw [List.mem_map] at hz
        obtain ⟨u, hu, rfl⟩ := hz
        exact (ht u hu).1
      simp only [List.map_cons, List.prod_cons] at hrec ⊢
      exact mul_lt_mul'' hfx hrec (le_of_lt hgx) (le_of_lt hgt)

/-- C2 (amended): after `fit` on a training set with exactly two classes
`a ≠ b` whose (processed) token lists are disjoint, and which are *balanced*
— equal document counts and equal total token counts per class — `predict_one`
on a non-empty text all of whose tokens occur among class `a`'s training
tokens returns `a`.  (The balance condition is forced by the counterexample:
with unbalanced classes the Laplace denominator of the large class can make a
class-`a` word likelier under `b`.) -/
theorem C2_nb_disjoint_balanced (ng : Ngram) (fr : FeatureRep) (X : List String)
    (y : List ℤ) (a b : ℤ) (t : String)
    (ha : a ∈ y) (hab : a ≠ b) (hcl : ∀ c ∈ y, c = a ∨ c = b)
    (hdisj : ∀ w ∈ classTokens ng fr X y a, w ∉ classTokens ng fr X y b)
    (hcount : y.count a = y.count b)
    (htot : (classTokens ng fr X y a).length = (classTokens ng fr X y b).length)
    (hne : nbProcTokens ng fr t ≠ [])
    (hsub : ∀ w ∈ nbProcTokens ng fr t, w ∈ classTokens ng fr X y a) :
    nbPredictOne (nbFit ng fr X y) t = a := by
  set m := nbFit ng fr X y with hm
  have hmng : m.ngram = ng := rfl
  have hmfr : m.featureRep = fr := rfl
  have hWa : m.totalWords a = (classTokens ng fr X y a).length := rfl
  have hWb : m.totalWords b = (classTokens ng fr X y b).length := rfl
  -- the common Laplace denominator is positive
  obtain ⟨w0, hw0⟩ := List.exists_mem_of_ne_nil _ hne
  have hw0v : w0 ∈ m.vocab := classTokens_subset_vocab ng fr X y a w0 (hsub w0 hw0)
  have hVpos : 0 < m.vocab.length := List.length_pos.mpr (List.ne_nil_of_mem hw0v)
  have hDpos : (0 : ℚ) < ((m.totalWords a + m.vocab.length : ℕ) : ℚ) := by
    have : 0 < m.totalWords a + m.vocab.length := Nat.lt_of_lt_of_le hVpos (Nat.le_add_left _ _)
    exact_mod_cast this
  have hDeq : m.totalWords b + m.vocab.length = m.totalWords a + m.vocab.length := by
    rw [hWa, hWb, htot]
  -- per-token likelihood comparison
  have hfact : ∀ w ∈ nbProcTokens ng fr t,
      0 < (if w ∈ m.vocab then nbLik m b w else 1) ∧
      (if w ∈ m.vocab then nbLik m b w else 1) < (if w ∈ m.vocab then nbLik m a w else 1) := by
    intro w hw
    have hwa : w ∈ classTokens ng fr X y a := hsub w hw
    have hwv : w ∈ m.vocab := classTokens_subset_vocab ng fr X y a w hwa
    rw [if_pos hwv, if_pos hwv]
    have hcb : m.wordCount b w = 0 := List.count_eq_zero.mpr (hdisj w hwa)
    have hca : 0 < m.wordCount a w := List.count_pos_iff.mpr hwa
    unfold nbLik
    rw [hcb, hDeq]
    constructor
    · exact div_pos (by norm_num) hDpos
    · rw [div_lt_div_iff_of_pos_right hDpos]
      have : (1 : ℕ) < m.wordCount a w + 1 := by omega
      exact_mod_cast this
  -- strict score comparison
  have hprodlt :
      ((nbProcTokens ng fr t).map (fun w => if w ∈ m.vocab then nbLik m b w else 1)).prod <
      ((nbProcTokens ng fr t).map (fun w => if w ∈ m.vocab then nbLik m a w else 1)).prod :=
    list_prod_lt_prod _ _ _ hne hfact
  have hprior_eq : nbPrior m b = nbPrior m a := by
    unfold nbPrior
    have : m.classCount b = m.classCount a := by
      show y.count b = y.count a
      exact hcount.symm
    rw [this]
  have hnpos : 0 < y.length := List.length_pos.mpr (List.ne_nil_of_mem ha)
  have hprior_pos : 0 < nbPrior m a := by
    unfold nbPrior
    refine div_pos ?_ ?_
    · have : 0 < y.count a := List.count_pos_iff.mpr ha
      exact_mod_cast this
    · exact_mod_cast hnpos
  have hscore : nbScore m b t < nbScore m a t := by
    unfold nbScore
    rw [hmng, hmfr, hprior_eq]
    exact mul_lt_mul_of_pos_left hprodlt hprior_pos
  -- the argmax over the class list picks `a`
  have haC : a ∈ m.classes := (mem_pyDedup a y).mpr ha
  have hnodup : m.classes.Nodup := pyDedup_nodup y
  obtain ⟨s, u, hsu⟩ := List.append_of_mem haC
  have hnd := hsu ▸ hnodup
  rw [List.nodup_append] at hnd
  obtain ⟨hs_nd, hau_nd, hdisj_su⟩ := hnd
  have hanotu : a ∉ u := (List.nodup_cons.mp hau_nd).1
  have hanots : a ∉ s := fun hcon => hdisj_su hcon (List.mem_cons_self a u)
  have hclassmem : ∀ c, c ∈ m.classes → c = a ∨ c = b := by
    intro c hc
    exact hcl c ((mem_pyDedup c y).mp hc)
  have hscores : nbScores m t =
      s.map (fun c => (c, nbScore m c t)) ++ (a, nbScore m a t) ::
        u.map (fun c => (c, nbScore m c t)) := by
    unfold nbScores
    rw [hsu, List.map_append, List.map_cons]
  unfold nbPredictOne
  rw [hscores, pyMax_first]
  · intro p hp
    rw [List.mem_map] at hp
    obtain ⟨c, hc, rfl⟩ := hp
    have hcmem : c ∈ m.classes := by rw [hsu]; exact List.mem_append_left _ hc
    rcases hclassmem c hcmem with rfl | rfl
    · exact absurd hc hanots
    · exact hscore
  · intro p hp
    rw [List.mem_map] at hp
    obtain ⟨c, hc, rfl⟩ := hp
    have hcmem : c ∈ m.classes := by
      rw [hsu]; exact List.mem_append_right _ (List.mem_cons_of_mem a hc)
    rcases hclassmem c hcmem with rfl | rfl
    · exact absurd hc hanotu
    · exact le_of_lt hscore

/-- Witness for C2 (amended) at a concrete balanced training set. -/
theorem C2_nb_disjoint_balanced_witness :
    nbPredictOne (nbFit Ngram.unigram FeatureRep.count
      ["good fine", "bad awful"] [4, 0]) "good" = 4 :=
  C2_nb_disjoint_balanced Ngram.unigram FeatureRep.count
    ["good fine", "bad awful"] [4, 0] 4 0 "good"
    (by decide) (by decide) (by decide) (by decide) (by decide) (by decide)
    (by decide) (by decide)

/-- C2 counterexample: the claim as stated is false.  The two training classes
have disjoint vocabularies ({a, w} for class 4, {z} for class 0) and the query
"w" is built purely from class 4's vocabulary, yet `predict_one` returns 0:
class 4's large token total (11) drives its smoothed likelihood for "w" down
to 2/14, below class 0's smoothed likelihood 1/4 for a word it never saw. -/
theorem C2_counterexample :
    (∀ w ∈ classTokens Ngram.unigram FeatureRep.count
        ["a a a a a a a a a a w", "z"] [4, 0] 4,
      w ∉ classTokens Ngram.unigram FeatureRep.count
        ["a a a a a a a a a a w", "z"] [4, 0] 0) ∧
    (∀ w ∈ pyLowerSplit "w",
      w ∈ classTokens Ngram.unigram FeatureRep.count
        ["a a a a a a a a a a w", "z"] [4, 0] 4) ∧
    nbPredictOne (nbFit Ngram.unigram FeatureRep.count
      ["a a a a a a a a a a w", "z"] [4, 0]) "w" = 0 ∧
    (0 : ℤ) ≠ 4 := by
  refine ⟨by decide, by decide, ?_, by decide⟩
  have htok : nbProcTokens Ngram.unigram FeatureRep.count "w" = ["w"] := by decide
  have hv : "w" ∈ (nbFit Ngram.unigram FeatureRep.count
      ["a a a a a a a a a a w", "z"] [4, 0]).vocab := by decide
  have hs4 : nbScore (nbFit Ngram.unigram FeatureRep.count
      ["a a a a a a a a a a w", "z"] [4, 0]) 4 "w" = 1/14 := by
    unfold nbScore nbPrior nbLik
    rw [show (nbFit Ngram.unigram FeatureRep.count
        ["a a a a a a a a a a w", "z"] [4, 0]).ngram = Ngram.unigram from rfl]
    rw [show (nbFit Ngram.unigram FeatureRep.count
        ["a a a a a a a a a a w", "z"] [4, 0]).featureRep = FeatureRep.count from rfl]
    rw [htok]
    simp only [List.map_cons, List.map_nil, List.prod_cons, List.prod_nil, if_pos hv]
    rw [show (nbFit Ngram.unigram FeatureRep.count
        ["a a a a a a a a a a w", "z"] [4, 0]).wordCount 4 "w" = 1 from by decide]
    rw [show (nbFit Ngram.unigram FeatureRep.count
        ["a a a a a a a a a a w", "z"] [4, 0]).totalWords 4 = 11 from by decide]
    rw [show (nbFit Ngram.unigram FeatureRep.count
        ["a a a a a a a a a a w", "z"] [4, 0]).vocab.length = 3 from by decide]
    rw [show (nbFit Ngram.unigram FeatureRep.count
        ["a a a a a a a a a a w", "z"] [4, 0]).classCount 4 = 1 from by decide]
    rw [show (nbFit Ngram.unigram FeatureRep.count
        ["a a a a a a a a a a w", "z"] [4, 0]).totalSamples = 2 from by decide]
    norm_num
  have hs0 : nbScore (nbFit Ngram.unigram FeatureRep.count
      ["a a a a a a a a a a w", "z"] [4, 0]) 0 "w" = 1/8 := by
    unfold nbScore nbPrior nbLik
    rw [show (nbFit Ngram.unigram FeatureRep.count
        ["a a a a a a a a a a w", "z"] [4, 0]).ngram = Ngram.unigram from rfl]
    rw [show (nbFit Ngram.unigram FeatureRep.count
        ["a a a a a a a a a a w", "z"] [4, 0]).featureRep = FeatureRep.count from rfl]
    rw [htok]
    simp only [List.map_cons, List.map_nil, List.prod_cons, List.prod_nil, if_pos hv]
    rw [show (nbFit Ngram.unigram FeatureRep.count
        ["a a a a a a a a a a w", "z"] [4, 0]).wordCount 0 "w" = 0 from by decide]
    rw [show (nbFit Ngram.unigram FeatureRep.count
        ["a a a a a a a a a a w", "z"] [4, 0]).totalWords 0 = 1 from by decide]
    rw [show (nbFit Ngram.unigram FeatureRep.count
        ["a a a a a a a a a a w", "z"] [4, 0]).vocab.length = 3 from by decide]
    rw [show (nbFit Ngram.unigram FeatureRep.count
        ["a a a a a a a a a a w", "z"] [4, 0]).classCount 0 = 1 from by decide]
    rw [show (nbFit Ngram.unigram FeatureRep.count
        ["a a a a a a a a a a w", "z"] [4, 0]).totalSamples = 2 from by decide]
    norm_num
  unfold nbPredictOne nbScores
  rw [show (nbFit Ngram.unigram FeatureRep.count
      ["a a a a a a a a a a w", "z"] [4, 0]).classes = [4, 0] from by decide]
  simp only [List.map_cons, List.map_nil]
  rw [hs4, hs0]
  have hmax : pyMax [((4 : ℤ), (1/14 : ℚ)), (0, 1/8)] = some (0, 1/8) := by
    unfold pyMax foldBest
    simp only [List.foldl_cons, List.foldl_nil]
    have hlt : ((4 : ℤ), (1/14 : ℚ)).2 < ((0 : ℤ), (1/8 : ℚ)).2 := by norm_num
    rw [if_pos hlt]
  rw [hmax]

theorem log_list_prod (l : List ℚ) (h : ∀ x ∈ l, 0 < x) :
    Real.log ((l.prod : ℚ) : ℝ) = (l.map (fun x => Real.log ((x : ℚ) : ℝ))).sum := by
  induction l with
  | nil => simp
  | cons x t ih =>
    have hx : 0 < x := h x (List.mem_cons_self x t)
    have ht : ∀ z ∈ t, 0 < z := fun z hz => h z (List.mem_cons_of_mem x hz)
    have htp : 0 < t.prod := List.prod_pos ht
    have hx0 : ((x : ℚ) : ℝ) ≠ 0 := by
      have : (0 : ℝ) < ((x : ℚ) : ℝ) := by exact_mod_cast hx
      exact ne_of_gt this
    have htp0 : ((t.prod : ℚ) : ℝ) ≠ 0 := by
      have : (0 : ℝ) < ((t.prod : ℚ) : ℝ) := by exact_mod_cast htp
      exact ne_of_gt this
    simp only [List.prod_cons, List.map_cons, List.sum_cons]
    rw [Rat.cast_mul, Real.log_mul hx0 htp0, ih ht]

theorem splitWsAux_append_space (l2 : List Char) :
    ∀ (l1 acc : List Char),
      splitWsAux (l1 ++ ' ' :: l2) acc = splitWsAux l1 acc ++ splitWsAux l2 [] := by
  intro l1
  induction l1 with
  | nil =>
    intro acc
    simp only [List.nil_append, splitWsAux]
    rw [if_pos (by decide : (' ' : Char).isWhitespace = true)]
    by_cases h : acc.isEmpty
    · rw [if_pos h, if_pos h]; simp
    · rw [if_neg h, if_neg h]; simp
  | cons c cs ih =>
    intro acc
    simp only [List.cons_append, splitWsAux]
    by_cases hw : c.isWhitespace
    · rw [if_pos hw, if_pos hw]
      by_cases h : acc.isEmpty
      · rw [if_pos h, if_pos h]
        simp only [List.append_eq]
        exact ih []
      · rw [if_neg h, if_neg h]
        simp only [List.append_eq]
        rw [ih [], List.cons_append]
    · rw [if_neg hw, if_neg hw]
      simp only [List.append_eq]
      exact ih (acc ++ [c])

theorem pyLowerSplit_append_space (t w : String) :
    pyLowerSplit (t ++ " " ++ w) = pyLowerSplit t ++ pyLowerSplit w := by
  unfold pyLowerSplit
  have hdata : (t ++ " " ++ w).data = t.data ++ ' ' :: w.data := by
    rw [String.data_append, String.data_append,
      show (" " : String).data = [' '] from rfl, List.append_assoc]
    rfl
  rw [hdata, List.map_append, List.map_cons,
    show Char.toLower ' ' = ' ' from by decide]
  exact splitWsAux_append_space _ _ _

theorem pyDedupAux_append_singleton {α : Type} [DecidableEq α] (x : α) :
    ∀ (l seen : List α), pyDedupAux (l ++ [x]) seen =
      pyDedupAux l seen ++ (if x ∈ seen ∨ x ∈ l then [] else [x]) := by
  intro l
  induction l with
  | nil =>
    intro seen
    by_cases hx : x ∈ seen
    · simp [pyDedupAux, hx]
    · simp [pyDedupAux, hx]
  | cons a l ih =>
    intro seen
    by_cases ha : a ∈ seen
    · simp only [List.cons_append, pyDedupAux, if_pos ha, List.append_eq]
      rw [ih seen]
      by_cases hx : x ∈ seen
      · simp [hx]
      · have hxa : x ≠ a := fun hcon => hx (hcon ▸ ha)
        simp [hx, List.mem_cons, hxa]
    · simp only [List.cons_append, pyDedupAux, if_neg ha, List.append_eq]
      rw [ih (a :: seen)]
      have hiff : (x ∈ a :: seen ∨ x ∈ l) ↔ (x ∈ seen ∨ x ∈ a :: l) := by
        simp only [List.mem_cons]
        tauto
      by_cases hc : x ∈ a :: seen ∨ x ∈ l
      · rw [if_pos hc, if_pos (hiff.mp hc)]
      · rw [if_neg hc, if_neg (fun hcon => hc (hiff.mpr hcon))]

/-- C9: `predict_one` scores each class by the stored log prior plus the sum,
over the text's tokens, of the stored Laplace-smoothed log-likelihood
`log((count_in_class[word]+1)/(total_words_in_class+|vocabulary|))` for tokens
in the training vocabulary, with out-of-vocabulary tokens contributing `0` to
every class's score (first conjunct: the log of the product-form score
`nbScore` is exactly that log-domain sum); the returned label is the argmax
class.  Consequently, in unigram mode, appending a token not in the
vocabulary to a text never changes the prediction (second conjunct). -/
theorem C9_nb_log_formula_and_oov (ng : Ngram) (fr : FeatureRep) (X : List String)
    (y : List ℤ) (t : String) (hv : (nbFit ng fr X y).vocab ≠ []) :
    (∀ c ∈ (nbFit ng fr X y).classes,
      Real.log ((nbScore (nbFit ng fr X y) c t : ℚ) : ℝ) =
        Real.log ((nbPrior (nbFit ng fr X y) c : ℚ) : ℝ) +
        ((nbProcTokens ng fr t).map (fun w =>
          if w ∈ (nbFit ng fr X y).vocab
          then Real.log ((nbLik (nbFit ng fr X y) c w : ℚ) : ℝ) else 0)).sum) ∧
    (∀ (w lw : String), ng = Ngram.unigram → pyLowerSplit w = [lw] →
      lw ∉ (nbFit ng fr X y).vocab →
      nbPredictOne (nbFit ng fr X y) (t ++ " " ++ w) =
        nbPredictOne (nbFit ng fr X y) t) := by
  have hgn : (nbFit ng fr X y).ngram = ng := rfl
  have hgf : (nbFit ng fr X y).featureRep = fr := rfl
  constructor
  · intro c hc
    have hcy : c ∈ y := (mem_pyDedup c y).mp hc
    have hprior_pos : 0 < nbPrior (nbFit ng fr X y) c := by
      unfold nbPrior
      refine div_pos ?_ ?_
      · have h1 : 0 < y.count c := List.count_pos_iff.mpr hcy
        have h2 : 0 < (nbFit ng fr X y).classCount c := h1
        exact_mod_cast h2
      · have h1 : 0 < y.length := List.length_pos.mpr (List.ne_nil_of_mem hcy)
        have h2 : 0 < (nbFit ng fr X y).totalSamples := h1
        exact_mod_cast h2
    have hV : 0 < (nbFit ng fr X y).vocab.length := List.length_pos.mpr hv
    have hfac_pos : ∀ x ∈ (nbProcTokens ng fr t).map
        (fun w => if w ∈ (nbFit ng fr X y).vocab then nbLik (nbFit ng fr X y) c w else 1),
        0 < x := by
      intro x hx
      rw [List.mem_map] at hx
      obtain ⟨w, hw, rfl⟩ := hx
      by_cases hwv : w ∈ (nbFit ng fr X y).vocab
      · rw [if_pos hwv]
        unfold nbLik
        refine div_pos ?_ ?_
        · exact_mod_cast Nat.succ_pos ((nbFit ng fr X y).wordCount c w)
        · have h1 : 0 < (nbFit ng fr X y).totalWords c + (nbFit ng fr X y).vocab.length :=
            Nat.lt_of_lt_of_le hV (Nat.le_add_left _ _)
          exact_mod_cast h1
      · rw [if_neg hwv]
        norm_num
    have hprod_pos : 0 < ((nbProcTokens ng fr t).map
        (fun w => if w ∈ (nbFit ng fr X y).vocab then nbLik (nbFit ng fr X y) c w else 1)).prod :=
      List.prod_pos hfac_pos
    have hpr0 : ((nbPrior (nbFit ng fr X y) c : ℚ) : ℝ) ≠ 0 := by
      have : (0 : ℝ) < ((nbPrior (nbFit ng fr X y) c : ℚ) : ℝ) := by exact_mod_cast hprior_pos
      exact ne_of_gt this
    have hprod0 : ((((nbProcTokens ng fr t).map
        (fun w => if w ∈ (nbFit ng fr X y).vocab then nbLik (nbFit ng fr X y) c w else 1)).prod
          : ℚ) : ℝ) ≠ 0 := by
      have h1 : (0 : ℝ) < ((((nbProcTokens ng fr t).map
          (fun w => if w ∈ (nbFit ng fr X y).vocab then nbLik (nbFit ng fr X y) c w
            else 1)).prod : ℚ) : ℝ) := by
        exact_mod_cast hprod_pos
      exact ne_of_gt h1
    unfold nbScore
    rw [hgn, hgf, Rat.cast_mul, Real.log_mul hpr0 hprod0, log_list_prod _ hfac_pos,
      List.map_map]
    congr 1
    congr 1
    apply List.map_congr_left
    intro w hw
    by_cases hwv : w ∈ (nbFit ng fr X y).vocab
    · simp [Function.comp, if_pos hwv]
    · simp [Function.comp, if_neg hwv]
  · intro w lw hng hwsplit hlwv
    subst hng
    have htokens : pyLowerSplit (t ++ " " ++ w) = pyLowerSplit t ++ [lw] := by
      rw [pyLowerSplit_append_space, hwsplit]
    have hscore : ∀ c, nbScore (nbFit Ngram.unigram fr X y) c (t ++ " " ++ w)
        = nbScore (nbFit Ngram.unigram fr X y) c t := by
      intro c
      unfold nbScore
      rw [hgn, hgf]
      congr 1
      cases fr with
      | count =>
        show (List.map _ (pyLowerSplit (t ++ " " ++ w))).prod
          = (List.map _ (pyLowerSplit t)).prod
        rw [htokens, List.map_append, List.prod_append]
        simp [if_neg hlwv]
      | binary =>
        show (List.map _ (pyDedup (pyLowerSplit (t ++ " " ++ w)))).prod
          = (List.map _ (pyDedup (pyLowerSplit t))).prod
        rw [htokens]
        unfold pyDedup
        rw [pyDedupAux_append_singleton]
        by_cases hmem : lw ∈ pyLowerSplit t
        · rw [if_pos (Or.inr hmem), List.append_nil]
        · rw [if_neg (by simp [hmem])]
          rw [List.map_append, List.prod_append]
          simp [if_neg hlwv]
    have hsc : nbScores (nbFit Ngram.unigram fr X y) (t ++ " " ++ w)
        = nbScores (nbFit Ngram.unigram fr X y) t := by
      unfold nbScores
      exact List.map_congr_left (fun c _ => by rw [hscore c])
    unfold nbPredictOne
    rw [hsc]

/-- Witness for C9 at a concrete trained model: the log-formula at class 4
and the prediction invariance under appending the out-of-vocabulary token
"zzz". -/
theorem C9_nb_log_formula_and_oov_witness :
    (Real.log ((nbScore (nbFit Ngram.unigram FeatureRep.count ["good", "bad"] [4, 0]) 4
        "good" : ℚ) : ℝ) =
      Real.log ((nbPrior (nbFit Ngram.unigram FeatureRep.count ["good", "bad"] [4, 0]) 4
        : ℚ) : ℝ) +
      ((nbProcTokens Ngram.unigram FeatureRep.count "good").map (fun w =>
        if w ∈ (nbFit Ngram.unigram FeatureRep.count ["good", "bad"] [4, 0]).vocab
        then Real.log ((nbLik (nbFit Ngram.unigram FeatureRep.count ["good", "bad"] [4, 0])
          4 w : ℚ) : ℝ) else 0)).sum) ∧
    nbPredictOne (nbFit Ngram.unigram FeatureRep.count ["good", "bad"] [4, 0])
      ("good" ++ " " ++ "zzz") =
    nbPredictOne (nbFit Ngram.unigram FeatureRep.count ["good", "bad"] [4, 0]) "good" :=
  ⟨(C9_nb_log_formula_and_oov Ngram.unigram FeatureRep.count ["good", "bad"] [4, 0]
      "good" (by decide)).1 4 (by decide),
   (C9_nb_log_formula_and_oov Ngram.unigram FeatureRep.count ["good", "bad"] [4, 0]
      "good" (by decide)).2 "zzz" "zzz" rfl (by decide) (by decide)⟩

/-!  `_label_naive_by_keywords` (`label_service.py` lines 173–201). -/

/-- `s.lower()` as a whole-string operation. -/
def pyLowerStr (s : String) : String := String.mk (s.data.map Char.toLower)

/-- Substring containment on character lists (Python `needle in haystack`). -/
def listInfix {α : Type} [DecidableEq α] (n : List α) : List α → Bool
  | [] => n.isEmpty
  | a :: t => n.isPrefixOf (a :: t) || listInfix n t

/-- Python `needle in haystack` for strings. -/
def pyInStr (needle hay : String) : Bool := listInfix needle.data hay.data

/-- The `scores` dict: for each class (in keyword-map insertion order) the
number of its keywords `w` with `w.lower() in t` where `t` is the lowercased
row text. -/
def naiveScores (m : List (String × List String)) (t : String) : List (String × ℕ) :=
  m.map (fun p => (p.1, (p.2.filter (fun w => pyInStr (pyLowerStr w) (pyLowerStr t))).length))

/-- The class-name → polarity mapping applied to the argmax class. -/
def polarityOfName (name : String) : ℤ :=
  if pyLowerStr name ∈ ["positive", "positives", "pos", "4"] then 4
  else if pyLowerStr name ∈ ["negative", "negatives", "neg", "0"] then 0
  else 2

/-- Per-row labeling of `_label_naive_by_keywords`: neutral (2) when the
keyword map is empty or the maximal score is 0, otherwise the polarity of
`max(scores.items(), key=lambda kv: kv[1])[0]` — the first class attaining
the maximal score. -/
def labelNaiveText (m : List (String × List String)) (t : String) : ℤ :=
  match pyMax (naiveScores m t) with
  | none => 2
  | some (lbl, v) => if v = 0 then 2 else polarityOfName lbl

/-- A pandas cell rendered by `astype(str)`: a null cell becomes "nan". -/
def cellStr : Option String → String
  | none => "nan"
  | some s => s

/-- `_label_naive_by_keywords` over a whole table: one label per row, from
the row's text-column cell.  (The caller `run_naive_labeling_job` passes a
text-column index that is always in range — `_find_text_column_index` returns
an existing column; an out-of-range index would raise in pandas, so the
`getD` default is never reached on the modelled runs.) -/
def labelNaiveDf (df : List (List (Option String))) (m : List (String × List String))
    (textColIdx : ℕ) : List ℤ :=
  df.map (fun row => labelNaiveText m (cellStr (row.getD textColIdx none)))

/-- C1 (amended): a row with no keyword match of any class (all scores 0, in
particular an empty keyword map) is labelled neutral (2); when the maximal
score is positive, the label is the polarity of the *first* class attaining
the maximum in keyword-map insertion order — in particular a class attaining
a unique strict positive maximum gets its polarity, but on a tie the label is
the first tied class's polarity, **not** neutral as the claim states (see the
counterexample). -/
theorem C1_keyword_labeler (m : List (String × List String)) (t : String) :
    (m = [] → labelNaiveText m t = 2) ∧
    ((∀ p ∈ naiveScores m t, p.2 = 0) → labelNaiveText m t = 2) ∧
    (∀ (pre post : List (String × ℕ)) (lbl : String) (v : ℕ),
      naiveScores m t = pre ++ (lbl, v) :: post → 0 < v →
      (∀ p ∈ pre, p.2 < v) → (∀ p ∈ post, p.2 ≤ v) →
      labelNaiveText m t = polarityOfName lbl) := by
  refine ⟨?_, ?_, ?_⟩
  · intro hm
    subst hm
    rfl
  · intro hall
    unfold labelNaiveText
    cases hs : naiveScores m t with
    | nil => rfl
    | cons p rest =>
      simp only [pyMax]
      obtain ⟨hm, _, _⟩ := foldBest_spec rest p
      have hmem : foldBest p rest ∈ p :: rest := by
        rcases hm with h | h
        · rw [h]; exact List.mem_cons_self p rest
        · exact List.mem_cons_of_mem p h
      have hv0 : (foldBest p rest).2 = 0 := by
        have := hall (foldBest p rest) (hs ▸ hmem)
        exact this
      rcases hfb : foldBest p rest with ⟨l2, v2⟩
      have hv2 : v2 = 0 := by rw [hfb] at hv0; exact hv0
      show (if v2 = 0 then (2 : ℤ) else polarityOfName l2) = 2
      exact if_pos hv2
  · intro pre post lbl v hs hv hpre hpost
    unfold labelNaiveText
    rw [hs, pyMax_first pre post lbl v hpre hpost]
    show (if v = 0 then (2 : ℤ) else polarityOfName lbl) = polarityOfName lbl
    exact if_neg (Nat.pos_iff_ne_zero.mp hv)

/-- Witness for C1 (amended) at a concrete input: "pos" is the first (indeed
unique) class attaining the maximal positive score on "i love it". -/
theorem C1_keyword_labeler_witness :
    labelNaiveText [("x", ["q"]), ("pos", ["love"])] "i love it" = 4 :=
  ((C1_keyword_labeler [("x", ["q"]), ("pos", ["love"])] "i love it").2.2
    [("x", 0)] [] "pos" 1 (by decide) (by decide) (by decide) (by decide)).trans
    (by decide)

/-- C1 counterexample: on a tie the claim says neutral (2), but the code's
`max` keeps the first class in keyword-map insertion order: with both classes
scoring 1 on "good bad", the label is 4 (the "positives" polarity), not 2. -/
theorem C1_counterexample :
    naiveScores [("positives", ["good"]), ("negatives", ["bad"])] "good bad"
      = [("positives", 1), ("negatives", 1)] ∧
    labelNaiveText [("positives", ["good"]), ("negatives", ["bad"])] "good bad" = 4 ∧
    (4 : ℤ) ≠ 2 := by decide

/-!  `_map_clusters_to_labels` (`label_service.py` lines 248–271). -/

/-- `np.unique`: the distinct values of the array, in ascending order. -/
def npUnique (xs : List ℤ) : List ℤ := List.insertionSort (· ≤ ·) (pyDedup xs)

/-- `unique_clusters[unique_clusters >= 0]`: the distinct non-noise cluster
ids, ascending. -/
def nonNoiseUniques (xs : List ℤ) : List ℤ := (npUnique xs).filter (fun c => decide (0 ≤ c))

/-- The mapping dict built by `_map_clusters_to_labels` and read back with
`mapping.get(c, 2)`: `-1 ↦ 2`; the first three non-noise uniques ↦ 0, 2, 4;
every later non-noise unique ↦ 2; anything absent from the dict (negative
ids other than `-1`) ↦ the default 2. -/
def clusterLabelOf (u : List ℤ) (c : ℤ) : ℤ :=
  if c = -1 then 2
  else if c ∈ u then
    (if u.indexOf c = 0 then 0
     else if u.indexOf c = 1 then 2
     else if u.indexOf c = 2 then 4
     else 2)
  else 2

/-- `_map_clusters_to_labels`. -/
def mapClustersToLabels (xs : List ℤ) : List ℤ :=
  xs.map (clusterLabelOf (nonNoiseUniques xs))

/-- The number of distinct non-noise cluster values of `xs` strictly below
`c` — the rank of `c` among the ascending uniques. -/
def countDistinctBelow (xs : List ℤ) (c : ℤ) : ℕ :=
  (pyDedup (xs.filter (fun d => decide (0 ≤ d ∧ d < c)))).length

theorem nonNoiseUniques_nodup (xs : List ℤ) : (nonNoiseUniques xs).Nodup :=
  (((List.perm_insertionSort _ (pyDedup xs)).nodup_iff).mpr (pyDedup_nodup xs)).filter _

theorem mem_nonNoiseUniques (xs : List ℤ) (c : ℤ) :
    c ∈ nonNoiseUniques xs ↔ c ∈ xs ∧ 0 ≤ c := by
  unfold nonNoiseUniques npUnique
  rw [List.mem_filter, (List.perm_insertionSort _ (pyDedup xs)).mem_iff, mem_pyDedup]
  simp

theorem nonNoiseUniques_sorted (xs : List ℤ) :
    (nonNoiseUniques xs).Pairwise (· < ·) := by
  have hs : (npUnique xs).Sorted (· ≤ ·) := List.sorted_insertionSort _ _
  have hn : (npUnique xs).Nodup :=
    ((List.perm_insertionSort _ (pyDedup xs)).nodup_iff).mpr (pyDedup_nodup xs)
  have hlt : (npUnique xs).Pairwise (· < ·) := by
    have := hs.and hn
    exact this.imp (fun h => lt_of_le_of_ne h.1 h.2)
  exact hlt.filter _

theorem indexOf_sorted_eq_count_lt (u : List ℤ) (hu : u.Pairwise (· < ·)) (c : ℤ)
    (hc : c ∈ u) : u.indexOf c = (u.filter (fun d => decide (d < c))).length := by
  induction u with
  | nil => cases hc
  | cons a t ih =>
    obtain ⟨ha, ht⟩ := List.pairwise_cons.mp hu
    by_cases hca : c = a
    · subst hca
      rw [List.indexOf_cons_self]
      have hfilter : t.filter (fun d => decide (d < c)) = [] := by
        rw [List.filter_eq_nil_iff]
        intro d hd
        simp only [decide_eq_true_eq]
        exact not_lt.mpr (le_of_lt (ha d hd))
      simp [List.filter_cons, hfilter]
    · have hct : c ∈ t := by
        rcases List.mem_cons.mp hc with h | h
        · exact absurd h hca
        · exact h
      have hlt : a < c := ha c hct
      rw [List.indexOf_cons]
      have hbe : (a == c) = false := by simp [Ne.symm hca]
      rw [hbe]
      show t.indexOf c + 1 = _
      simp only [List.filter_cons, decide_eq_true_eq, if_pos hlt, List.length_cons]
      rw [ih ht hct]

theorem filter_nonNoise_length_eq (xs : List ℤ) (c : ℤ) :
    ((nonNoiseUniques xs).filter (fun d => decide (d < c))).length =
      countDistinctBelow xs c := by
  have h1 : ((nonNoiseUniques xs).filter (fun d => decide (d < c))).Nodup :=
    (nonNoiseUniques_nodup xs).filter _
  have h2 : (pyDedup (xs.filter (fun d => decide (0 ≤ d ∧ d < c)))).Nodup :=
    pyDedup_nodup _
  have hmem : ∀ d : ℤ, d ∈ (nonNoiseUniques xs).filter (fun d => decide (d < c)) ↔
      d ∈ pyDedup (xs.filter (fun d => decide (0 ≤ d ∧ d < c))) := by
    intro d
    rw [List.mem_filter, mem_nonNoiseUniques, mem_pyDedup, List.mem_filter]
    simp only [decide_eq_true_eq]
    tauto
  have hfin : ((nonNoiseUniques xs).filter (fun d => decide (d < c))).toFinset =
      (pyDedup (xs.filter (fun d => decide (0 ≤ d ∧ d < c)))).toFinset := by
    apply Finset.ext
    intro d
    rw [List.mem_toFinset, List.mem_toFinset]
    exact hmem d
  unfold countDistinctBelow
  rw [← List.toFinset_card_of_nodup h1, ← List.toFinset_card_of_nodup h2, hfin]

/-- C8: every output of `_map_clusters_to_labels` lies in {0, 2, 4}; and
elementwise, a negative id (the noise sentinel `-1`, or any other negative
value, absent from the mapping dict) maps to 2, while a non-negative id maps
to 0, 2 or 4 according to whether it is the first, second or third distinct
non-noise id in the ascending enumeration order of `np.unique` (equivalently:
has 0, 1 or 2 distinct non-noise values below it), anything from the fourth
on mapping to 2. -/
theorem C8_cluster_mapper (xs : List ℤ) :
    (∀ y ∈ mapClustersToLabels xs, y = 0 ∨ y = 2 ∨ y = 4) ∧
    mapClustersToLabels xs = xs.map (fun c =>
      if c < 0 then 2
      else if countDistinctBelow xs c = 0 then 0
      else if countDistinctBelow xs c = 1 then 2
      else if countDistinctBelow xs c = 2 then 4
      else 2) := by
  constructor
  · intro y hy
    unfold mapClustersToLabels at hy
    rw [List.mem_map] at hy
    obtain ⟨c, _, rfl⟩ := hy
    unfold clusterLabelOf
    split_ifs <;> simp
  · unfold mapClustersToLabels
    apply List.map_congr_left
    intro c hc
    by_cases hneg : c < 0
    · rw [if_pos hneg]
      unfold clusterLabelOf
      by_cases hm1 : c = -1
      · rw [if_pos hm1]
      · rw [if_neg hm1, if_neg (fun hcon =>
          absurd ((mem_nonNoiseUniques xs c).mp hcon).2 (not_le.mpr hneg))]
    · rw [if_neg hneg]
      have hcmem : c ∈ nonNoiseUniques xs :=
        (mem_nonNoiseUniques xs c).mpr ⟨hc, not_lt.mp hneg⟩
      have hm1 : c ≠ -1 := by
        intro hcon
        exact hneg (hcon ▸ (by norm_num))
      have hidx : (nonNoiseUniques xs).indexOf c = countDistinctBelow xs c := by
        rw [indexOf_sorted_eq_count_lt _ (nonNoiseUniques_sorted xs) c hcmem]
        exact filter_nonNoise_length_eq xs c
      unfold clusterLabelOf
      rw [if_neg hm1, if_pos hcmem, hidx]

/-- Witness for C8 at a concrete array with a noise sentinel and another
negative id. -/
theorem C8_cluster_mapper_witness :
    ((2 : ℤ) = 0 ∨ (2 : ℤ) = 2 ∨ (2 : ℤ) = 4) ∧
    mapClustersToLabels [-1, 7, 3, 3, -2] = [2, 2, 0, 0, 2] :=
  ⟨(C8_cluster_mapper [-1, 7, 3, 3, -2]).1 2 (by decide),
   ((C8_cluster_mapper [-1, 7, 3, 3, -2]).2).trans (by decide)⟩

/-!  `_apply_column_validations` (`cleaning_service.py` lines 192–298).

A table is a list of rows; a row is a list of cells (`Option String`, see the
header comment).  `width` is `len(df.columns)`.  The date parser
(`parse_date`, a chain of `strptime` format attempts) is abstracted into a
parameter `dateOk : String → Bool`; every theorem below holds for every such
parser.  The per-rule rejection counters in the global `cleaning_metrics`
dict are a side channel and are not modelled.  Python's `str.isdigit` is
modelled as the ASCII digit test (it additionally accepts some non-ASCII
digit characters on which `int()` then raises, hitting the `except` branch
that blanks the whole polarity mask; the embedding covers ASCII data, where
that branch is unreachable). -/

/-- The numeric value of a run of ASCII digits. -/
def digitsVal (cs : List Char) : ℕ :=
  cs.foldl (fun n c => n * 10 + (c.toNat - 48)) 0

/-- Python `s.isdigit()` (ASCII): non-empty and all digits. -/
def pyIsDigit (s : String) : Bool :=
  !s.data.isEmpty && s.data.all Char.isDigit

/-- Python `int(s)` restricted to the forms arising here: an optional minus
sign followed by decimal digits; anything else is a `ValueError` (`none`). -/
def pyParseInt (s : String) : Option ℤ :=
  match s.data with
  | [] => none
  | '-' :: rest =>
    if rest.isEmpty || !rest.all Char.isDigit then none
    else some (-(digitsVal rest : ℤ))
  | cs => if cs.all Char.isDigit then some ((digitsVal cs : ℤ)) else none

inductive VType
  | polarity | uniqueId | date | notEmpty | maxLength
deriving DecidableEq

/-- One `ColumnValidationOptions` record.  `allowedValues = []` models a
missing/empty `allowed_values` (falsy, rule skipped); `maxLen = 0` models a
missing/zero `max_length` (falsy, rule skipped). -/
structure ValidationRule where
  column : String
  vtype : VType
  allowedValues : List ℤ
  maxLen : ℕ
deriving DecidableEq

/-- Result of resolving a rule's `column` field against the table. -/
inductive ColRes
  | skip
  | err
  | idx (j : ℕ)
deriving DecidableEq

/-- Column resolution: `int(column)` first — an index `≥ len(df.columns)`
skips the rule (`continue`); a negative index selects a column from the end
(pandas `iloc`), raising `IndexError` (`err`) when out of range; a
non-integer name is looked up in `column_mapping` (first match), a missing
name or an out-of-range mapped index skips the rule. -/
def resolveCol (colName : String) (mapping : List (ℕ × String)) (width : ℕ) : ColRes :=
  match pyParseInt colName with
  | some i =>
    if (width : ℤ) ≤ i then ColRes.skip
    else if 0 ≤ i then ColRes.idx i.toNat
    else if 0 ≤ (width : ℤ) + i then ColRes.idx ((width : ℤ) + i).toNat
    else ColRes.err
  | none =>
    match mapping.find? (fun p => p.2 = colName) with
    | some p => if width ≤ p.1 then ColRes.skip else ColRes.idx p.1
    | none => ColRes.skip

/-- `df.iloc[:, j]`. -/
def colCells (df : List (List (Option String))) (j : ℕ) : List (Option String) :=
  df.map (fun r => r.getD j none)

/-- The polarity check on one cell:
`astype(str).apply(int(x) if x.isdigit() else None).isin(allowed) | isna()`. -/
def polarityOk (allowed : List ℤ) (cell : Option String) : Bool :=
  match cell with
  | none => true
  | some s => pyIsDigit s && decide ((digitsVal s.data : ℤ) ∈ allowed)

/-- Python `s.strip()`: drop whitespace from both ends. -/
def pyStrip (s : String) : String :=
  String.mk (((s.data.dropWhile Char.isWhitespace).reverse.dropWhile
    Char.isWhitespace).reverse)

/-- The `not_empty` check on one cell:
`notna() & (astype(str).str.strip() != "")`. -/
def notEmptyOk (cell : Option String) : Bool :=
  match cell with
  | none => false
  | some s => decide (pyStrip s ≠ "")

/-- The `unique_id` scan: a cell participates only if non-null and non-empty,
and only the first occurrence of each value is kept (`seen` accumulates every
non-null non-empty value as it is scanned, masked or not). -/
def uniqueMaskAux (seen : List String) : List (Option String) → List Bool
  | [] => []
  | none :: rest => false :: uniqueMaskAux seen rest
  | some s :: rest =>
    if s = "" then false :: uniqueMaskAux seen rest
    else if s ∈ seen then false :: uniqueMaskAux seen rest
    else true :: uniqueMaskAux (s :: seen) rest

def uniqueMask (cells : List (Option String)) : List Bool := uniqueMaskAux [] cells

/-- The boolean column mask one rule contributes on its resolved column `j`
(an all-true mask models the `continue` of a rule with falsy parameters). -/
def ruleMask (dateOk : String → Bool) (df : List (List (Option String))) (j : ℕ) :
    ValidationRule → List Bool
  | ⟨_, VType.polarity, allowed, _⟩ =>
    if allowed = [] then List.replicate df.length true
    else (colCells df j).map (polarityOk allowed)
  | ⟨_, VType.uniqueId, _, _⟩ => uniqueMask (colCells df j)
  | ⟨_, VType.date, _, _⟩ =>
    (colCells df j).map (fun c => match c with | none => false | some s => dateOk s)
  | ⟨_, VType.notEmpty, _, _⟩ => (colCells df j).map notEmptyOk
  | ⟨_, VType.maxLength, _, bound⟩ =>
    if bound = 0 then List.replicate df.length true
    else (colCells df j).map (fun c => decide ((cellStr c).length ≤ bound))

/-- `mask = mask & col_mask`. -/
def maskAnd (m1 m2 : List Bool) : List Bool := List.zipWith and m1 m2

/-- The rule loop: starting from the all-true mask, AND in each rule's column
mask; `none` models the `IndexError` a negative out-of-range column index
raises out of the whole function. -/
def foldMasks (dateOk : String → Bool) (df : List (List (Option String)))
    (mapping : List (ℕ × String)) (width : ℕ) :
    List ValidationRule → List Bool → Option (List Bool)
  | [], mask => some mask
  | v :: rest, mask =>
    match resolveCol v.column mapping width with
    | ColRes.skip => foldMasks dateOk df mapping width rest mask
    | ColRes.err => none
    | ColRes.idx j =>
      foldMasks dateOk df mapping width rest (maskAnd mask (ruleMask dateOk df j v))

/-- `df[mask]`. -/
def maskFilter {α : Type} : List α → List Bool → List α
  | [], _ => []
  | _ :: _, [] => []
  | x :: xs, b :: bs => if b then x :: maskFilter xs bs else maskFilter xs bs

/-- `_apply_column_validations`: identity on an empty rule list, otherwise
one combined mask (initially all-true), ANDed per rule, applied once at the
end. -/
def applyColumnValidations (dateOk : String → Bool) (df : List (List (Option String)))
    (validations : List ValidationRule) (mapping : List (ℕ × String)) (width : ℕ) :
    Option (List (List (Option String))) :=
  if validations = [] then some df
  else
    match foldMasks dateOk df mapping width validations (List.replicate df.length true) with
    | none => none
    | some mask => some (maskFilter df mask)

/-- The independent per-row re-check of one rule, following the rule
descriptions of the spec (§4.2): a rule whose column does not resolve is a
no-op; `polarity` holds when the cell is null or parses as a digit string
whose value is allowed; `unique_id` when the cell is non-null, non-empty and
no earlier row holds the same value in that column; `date` when the non-null
cell parses; `not_empty` when the non-null cell is not blank after trimming;
`max_length` when the rule is active and the cell is null (nulls pass per the
spec) or its stringified length is within the bound. -/
def rowSatisfies (dateOk : String → Bool) (df : List (List (Option String)))
    (mapping : List (ℕ × String)) (width : ℕ) (v : ValidationRule) (i : ℕ) : Prop :=
  match resolveCol v.column mapping width with
  | ColRes.skip => True
  | ColRes.err => True
  | ColRes.idx j =>
    match v.vtype with
    | VType.polarity => v.allowedValues = [] ∨
        (match (df.getD i []).getD j none with
         | none => True
         | some s => pyIsDigit s = true ∧ (digitsVal s.data : ℤ) ∈ v.allowedValues)
    | VType.uniqueId => ∃ s, (df.getD i []).getD j none = some s ∧ s ≠ "" ∧
        ∀ i' < i, (df.getD i' []).getD j none ≠ some s
    | VType.date => ∃ s, (df.getD i []).getD j none = some s ∧ dateOk s = true
    | VType.notEmpty => ∃ s, (df.getD i []).getD j none = some s ∧ pyStrip s ≠ ""
    | VType.maxLength => v.maxLen = 0 ∨
        (match (df.getD i []).getD j none with
         | none => True
         | some s => s.length ≤ v.maxLen)

theorem getD_map {α β : Type} (f : α → β) (d : β) (d' : α) :
    ∀ (l : List α) (i : ℕ), i < l.length → (l.map f).getD i d = f (l.getD i d') := by
  intro l
  induction l with
  | nil => intro i h; simp at h
  | cons a t ih =>
    intro i h
    cases i with
    | zero => rfl
    | succ n => exact ih n (Nat.lt_of_succ_lt_succ h)

theorem maskFilter_length_le {α : Type} :
    ∀ (l : List α) (m : List Bool), (maskFilter l m).length ≤ l.length := by
  intro l
  induction l with
  | nil => intro m; simp [maskFilter]
  | cons x xs ih =>
    intro m
    cases m with
    | nil => simp [maskFilter]
    | cons b bs =>
      cases b with
      | false =>
        simp only [maskFilter, if_neg (by simp : ¬(false = true))]
        exact Nat.le_succ_of_le (ih bs)
      | true =>
        simp only [maskFilter, if_pos rfl, List.length_cons]
        exact Nat.succ_le_succ (ih bs)

theorem maskFilter_replicate_true {α : Type} :
    ∀ (l : List α), maskFilter l (List.replicate l.length true) = l := by
  intro l
  induction l with
  | nil => rfl
  | cons x xs ih =>
    simp [List.replicate_succ, maskFilter, ih]

theorem maskAnd_getD :
    ∀ (m1 m2 : List Bool) (i : ℕ), i < m1.length → i < m2.length →
      (maskAnd m1 m2).getD i false = (m1.getD i false && m2.getD i false) := by
  intro m1
  induction m1 with
  | nil => intro m2 i h1 _; simp at h1
  | cons b1 t1 ih =>
    intro m2 i h1 h2
    cases m2 with
    | nil => simp at h2
    | cons b2 t2 =>
      cases i with
      | zero => rfl
      | succ n =>
        exact ih t2 n (Nat.lt_of_succ_lt_succ h1) (Nat.lt_of_succ_lt_succ h2)

theorem uniqueMaskAux_length :
    ∀ (cells : List (Option String)) (seen : List String),
      (uniqueMaskAux seen cells).length = cells.length := by
  intro cells
  induction cells with
  | nil => intro seen; rfl
  | cons c rest ih =>
    intro seen
    cases c with
    | none => simp [uniqueMaskAux, ih]
    | some s =>
      by_cases h1 : s = ""
      · simp [uniqueMaskAux, if_pos h1, ih]
      · by_cases h2 : s ∈ seen
        · simp [uniqueMaskAux, if_neg h1, if_pos h2, ih]
        · simp [uniqueMaskAux, if_neg h1, if_neg h2, ih]

theorem colCells_length (df : List (List (Option String))) (j : ℕ) :
    (colCells df j).length = df.length := by
  simp [colCells]

theorem colCells_getD (df : List (List (Option String))) (j i : ℕ) (hi : i < df.length) :
    (colCells df j).getD i none = (df.getD i []).getD j none := by
  unfold colCells
  exact getD_map _ none [] df i hi

theorem ruleMask_length (dateOk : String → Bool) (df : List (List (Option String)))
    (j : ℕ) (v : ValidationRule) : (ruleMask dateOk df j v).length = df.length := by
  obtain ⟨name, vt, allowed, bound⟩ := v
  cases vt with
  | polarity =>
    by_cases h : allowed = []
    · simp [ruleMask, h]
    · simp [ruleMask, h, colCells]
  | uniqueId =>
    show (uniqueMask (colCells df j)).length = df.length
    rw [uniqueMask, uniqueMaskAux_length, colCells_length]
  | date => simp [ruleMask, colCells]
  | notEmpty => simp [ruleMask, colCells]
  | maxLength =>
    by_cases h : bound = 0
    · simp [ruleMask, h]
    · simp [ruleMask, h, colCells]

theorem forall_lt_succ_cons (c : Option String) (rest : List (Option String))
    (n : ℕ) (s : String) :
    (∀ i' < n + 1, (c :: rest).getD i' none ≠ some s) ↔
      (c ≠ some s ∧ ∀ i' < n, rest.getD i' none ≠ some s) := by
  constructor
  · intro h
    exact ⟨h 0 (Nat.succ_pos n), fun i' hi' => h (i' + 1) (Nat.succ_lt_succ hi')⟩
  · rintro ⟨h0, h⟩ i' hi'
    cases i' with
    | zero => exact h0
    | succ k => exact h k (Nat.lt_of_succ_lt_succ hi')

theorem uniqueMaskAux_spec :
    ∀ (cells : List (Option String)) (seen : List String) (i : ℕ), i < cells.length →
      ((uniqueMaskAux seen cells).getD i false = true ↔
        ∃ s, cells.getD i none = some s ∧ s ≠ "" ∧ s ∉ seen ∧
          ∀ i' < i, cells.getD i' none ≠ some s) := by
  intro cells
  induction cells with
  | nil => intro seen i hi; simp at hi
  | cons c rest ih =>
    intro seen i hi
    cases c with
    | none =>
      cases i with
      | zero => simp [uniqueMaskAux]
      | succ n =>
        have hn : n < rest.length := Nat.lt_of_succ_lt_succ hi
        simp only [uniqueMaskAux, List.getD_cons_succ, forall_lt_succ_cons]
        rw [ih seen n hn]
        constructor
        · rintro ⟨s, hc, hne, hs, hall⟩
          exact ⟨s, hc, hne, hs, by simp, hall⟩
        · rintro ⟨s, hc, hne, hs, _, hall⟩
          exact ⟨s, hc, hne, hs, hall⟩
    | some s0 =>
      by_cases h1 : s0 = ""
      · subst h1
        cases i with
        | zero =>
          simp only [uniqueMaskAux, if_pos rfl, List.getD_cons_zero]
          constructor
          · intro h; simp at h
          · rintro ⟨s, hc, hne, _, _⟩
            exact absurd (Option.some.inj hc).symm hne
        | succ n =>
          have hn : n < rest.length := Nat.lt_of_succ_lt_succ hi
          simp only [uniqueMaskAux, if_pos rfl, if_true, List.getD_cons_succ,
            forall_lt_succ_cons]
          rw [ih seen n hn]
          constructor
          · rintro ⟨s, hc, hne, hs, hall⟩
            refine ⟨s, hc, hne, hs, ?_, hall⟩
            intro hcon
            exact hne (Option.some.inj hcon).symm
          · rintro ⟨s, hc, hne, hs, _, hall⟩
            exact ⟨s, hc, hne, hs, hall⟩
      · by_cases h2 : s0 ∈ seen
        · cases i with
          | zero =>
            simp only [uniqueMaskAux, if_neg h1, if_pos h2, List.getD_cons_zero]
            constructor
            · intro h; simp at h
            · rintro ⟨s, hc, _, hs, _⟩
              exact absurd ((Option.some.inj hc) ▸ h2) hs
          | succ n =>
            have hn : n < rest.length := Nat.lt_of_succ_lt_succ hi
            simp only [uniqueMaskAux, if_neg h1, if_pos h2, List.getD_cons_succ,
              forall_lt_succ_cons]
            rw [ih seen n hn]
            constructor
            · rintro ⟨s, hc, hne, hs, hall⟩
              refine ⟨s, hc, hne, hs, ?_, hall⟩
              intro hcon
              exact hs ((Option.some.inj hcon) ▸ h2)
            · rintro ⟨s, hc, hne, hs, _, hall⟩
              exact ⟨s, hc, hne, hs, hall⟩
        · cases i with
          | zero =>
            simp only [uniqueMaskAux, if_neg h1, if_neg h2, List.getD_cons_zero]
            constructor
            · intro _
              exact ⟨s0, rfl, h1, h2, by intro i' hi'; simp at hi'⟩
            · intro _; trivial
          | succ n =>
            have hn : n < rest.length := Nat.lt_of_succ_lt_succ hi
            simp only [uniqueMaskAux, if_neg h1, if_neg h2, List.getD_cons_succ,
              forall_lt_succ_cons]
            rw [ih (s0 :: seen) n hn]
            constructor
            · rintro ⟨s, hc, hne, hs, hall⟩
              have hs1 : s ∉ seen := fun hcon => hs (List.mem_cons_of_mem s0 hcon)
              have hs2 : some s0 ≠ some s := by
                intro hcon
                exact hs ((Option.some.inj hcon) ▸ List.mem_cons_self s0 seen)
              exact ⟨s, hc, hne, hs1, hs2, hall⟩
            · rintro ⟨s, hc, hne, hs, h0, hall⟩
              have hs0 : s ∉ s0 :: seen := by
                intro hcon
                rcases List.mem_cons.mp hcon with h | h
                · exact h0 (h ▸ rfl)
                · exact hs h
              exact ⟨s, hc, hne, hs0, hall⟩

theorem uniqueMask_spec (cells : List (Option String)) (i : ℕ) (hi : i < cells.length) :
    ((uniqueMask cells).getD i false = true ↔
      ∃ s, cells.getD i none = some s ∧ s ≠ "" ∧
        ∀ i' < i, cells.getD i' none ≠ some s) := by
  rw [uniqueMask, uniqueMaskAux_spec cells [] i hi]
  constructor
  · rintro ⟨s, hc, hne, _, hall⟩
    exact ⟨s, hc, hne, hall⟩
  · rintro ⟨s, hc, hne, hall⟩
    exact ⟨s, hc, hne, by simp, hall⟩

theorem ruleMask_implies (dateOk : String → Bool) (df : List (List (Option String)))
    (mapping : List (ℕ × String)) (width : ℕ) (v : ValidationRule) (j : ℕ)
    (hres : resolveCol v.column mapping width = ColRes.idx j)
    (i : ℕ) (hi : i < df.length)
    (hm : (ruleMask dateOk df j v).getD i false = true) :
    rowSatisfies dateOk df mapping width v i := by
  have hcl : i < (colCells df j).length := by rw [colCells_length]; exact hi
  obtain ⟨name, vt, allowed, bound⟩ := v
  unfold rowSatisfies
  rw [hres]
  cases vt with
  | polarity =>
    by_cases hall : allowed = []
    · exact Or.inl hall
    · refine Or.inr ?_
      rw [show ruleMask dateOk df j ⟨name, VType.polarity, allowed, bound⟩
        = (colCells df j).map (polarityOk allowed) from by rw [ruleMask, if_neg hall]] at hm
      rw [getD_map (polarityOk allowed) false none (colCells df j) i hcl,
        colCells_getD df j i hi] at hm
      cases hcell : (df.getD i []).getD j none with
      | none => trivial
      | some s =>
        rw [hcell] at hm
        unfold polarityOk at hm
        rw [Bool.and_eq_true] at hm
        exact ⟨hm.1, by simpa using hm.2⟩
  | uniqueId =>
    rw [show ruleMask dateOk df j ⟨name, VType.uniqueId, allowed, bound⟩
      = uniqueMask (colCells df j) from rfl] at hm
    rw [uniqueMask_spec (colCells df j) i hcl] at hm
    obtain ⟨s, hc, hne, hall⟩ := hm
    rw [colCells_getD df j i hi] at hc
    refine ⟨s, hc, hne, ?_⟩
    intro i' hi'
    have hi'd : i' < df.length := Nat.lt_trans hi' hi
    have := hall i' hi'
    rwa [colCells_getD df j i' hi'd] at this
  | date =>
    rw [show ruleMask dateOk df j ⟨name, VType.date, allowed, bound⟩
      = (colCells df j).map (fun c => match c with | none => false | some s => dateOk s)
      from rfl] at hm
    rw [getD_map _ false none (colCells df j) i hcl, colCells_getD df j i hi] at hm
    cases hcell : (df.getD i []).getD j none with
    | none => rw [hcell] at hm; simp at hm
    | some s =>
      rw [hcell] at hm
      exact ⟨s, hcell, hm⟩
  | notEmpty =>
    rw [show ruleMask dateOk df j ⟨name, VType.notEmpty, allowed, bound⟩
      = (colCells df j).map notEmptyOk from rfl] at hm
    rw [getD_map notEmptyOk false none (colCells df j) i hcl, colCells_getD df j i hi] at hm
    cases hcell : (df.getD i []).getD j none with
    | none => rw [hcell] at hm; simp [notEmptyOk] at hm
    | some s =>
      rw [hcell] at hm
      unfold notEmptyOk at hm
      exact ⟨s, hcell, by simpa using hm⟩
  | maxLength =>
    by_cases hb : bound = 0
    · exact Or.inl hb
    · refine Or.inr ?_
      rw [show ruleMask dateOk df j ⟨name, VType.maxLength, allowed, bound⟩
        = (colCells df j).map (fun c => decide ((cellStr c).length ≤ bound))
        from by rw [ruleMask, if_neg hb]] at hm
      rw [getD_map _ false none (colCells df j) i hcl, colCells_getD df j i hi] at hm
      cases hcell : (df.getD i []).getD j none with
      | none => trivial
      | some s =>
        rw [hcell] at hm
        simpa [cellStr] using hm

theorem foldMasks_spec (dateOk : String → Bool) (df : List (List (Option String)))
    (mapping : List (ℕ × String)) (width : ℕ) :
    ∀ (rules : List ValidationRule) (mask0 mask : List Bool),
      mask0.length = df.length →
      foldMasks dateOk df mapping width rules mask0 = some mask →
      mask.length = df.length ∧
      ∀ i < df.length, mask.getD i false = true →
        (mask0.getD i false = true ∧
          ∀ v ∈ rules, rowSatisfies dateOk df mapping width v i) := by
  intro rules
  induction rules with
  | nil =>
    intro mask0 mask hlen hfold
    obtain rfl : mask0 = mask := Option.some.inj hfold
    exact ⟨hlen, fun i _ hm => ⟨hm, fun v hv => absurd hv (List.not_mem_nil v)⟩⟩
  | cons v rest ih =>
    intro mask0 mask hlen hfold
    unfold foldMasks at hfold
    cases hres : resolveCol v.column mapping width with
    | skip =>
      rw [hres] at hfold
      obtain ⟨hlen', hprop⟩ := ih mask0 mask hlen hfold
      refine ⟨hlen', fun i hi hm => ?_⟩
      obtain ⟨h0, hall⟩ := hprop i hi hm
      refine ⟨h0, fun v' hv' => ?_⟩
      rcases List.mem_cons.mp hv' with rfl | hv'
      · unfold rowSatisfies
        rw [hres]
        trivial
      · exact hall v' hv'
    | err => rw [hres] at hfold; cases hfold
    | idx j =>
      rw [hres] at hfold
      have hlenand : (maskAnd mask0 (ruleMask dateOk df j v)).length = df.length := by
        unfold maskAnd
        rw [List.length_zipWith, hlen, ruleMask_length, Nat.min_self]
      obtain ⟨hlen', hprop⟩ := ih _ mask hlenand hfold
      refine ⟨hlen', fun i hi hm => ?_⟩
      obtain ⟨h0, hall⟩ := hprop i hi hm
      have hi0 : i < mask0.length := by rw [hlen]; exact hi
      have hir : i < (ruleMask dateOk df j v).length := by
        rw [ruleMask_length]; exact hi
      rw [maskAnd_getD mask0 _ i hi0 hir, Bool.and_eq_true] at h0
      refine ⟨h0.1, fun v' hv' => ?_⟩
      rcases List.mem_cons.mp hv' with rfl | hv'
      · exact ruleMask_implies dateOk df mapping width v' j hres i hi h0.2
      · exact hall v' hv'

/-- C5: for every table, rule list and column mapping, whenever
`_apply_column_validations` returns a table (rather than raising), that table
is the input filtered by one boolean mask — so its row count is at most the
input's — and every retained row satisfies the independent per-row re-check
`rowSatisfies` of every configured rule (polarity membership, first-occurrence
uniqueness, date parseability, non-emptiness, max-length). -/
theorem C5_row_validator (dateOk : String → Bool) (df : List (List (Option String)))
    (validations : List ValidationRule) (mapping : List (ℕ × String)) (width : ℕ)
    (out : List (List (Option String)))
    (hout : applyColumnValidations dateOk df validations mapping width = some out) :
    out.length ≤ df.length ∧
    ∃ mask : List Bool, out = maskFilter df mask ∧
      ∀ i < df.length, mask.getD i false = true →
        ∀ v ∈ validations, rowSatisfies dateOk df mapping width v i := by
  unfold applyColumnValidations at hout
  by_cases hv : validations = []
  · rw [if_pos hv] at hout
    obtain rfl : df = out := Option.some.inj hout
    subst hv
    refine ⟨le_refl _, List.replicate df.length true, (maskFilter_replicate_true df).symm, ?_⟩
    intro i _ _ v hv
    exact absurd hv (List.not_mem_nil v)
  · rw [if_neg hv] at hout
    cases hfold : foldMasks dateOk df mapping width validations
        (List.replicate df.length true) with
    | none => rw [hfold] at hout; cases hout
    | some mask =>
      rw [hfold] at hout
      obtain rfl : maskFilter df mask = out := Option.some.inj hout
      obtain ⟨hlen, hprop⟩ := foldMasks_spec dateOk df mapping width validations
        (List.replicate df.length true) mask (by simp) hfold
      exact ⟨maskFilter_length_le df mask, mask, rfl,
        fun i hi hm => (hprop i hi hm).2⟩

/-- Witness for C5 at a concrete table: the polarity rule on column 0 and the
not-empty rule on column 1 keep the first row and drop the second. -/
theorem C5_row_validator_witness :
    ([[some "4", some "hello"]] :
        List (List (Option String))).length ≤
      ([[some "4", some "hello"], [some "7", some ""]] :
        List (List (Option String))).length ∧
    ∃ mask : List Bool,
      ([[some "4", some "hello"]] : List (List (Option String))) =
        maskFilter [[some "4", some "hello"], [some "7", some ""]] mask ∧
      ∀ i < ([[some "4", some "hello"], [some "7", some ""]] :
          List (List (Option String))).length,
        mask.getD i false = true →
        ∀ v ∈ [ValidationRule.mk "0" VType.polarity [0, 2, 4] 0,
               ValidationRule.mk "1" VType.notEmpty [] 0],
          rowSatisfies (fun _ => false) [[some "4", some "hello"], [some "7", some ""]]
            [] 2 v i :=
  C5_row_validator (fun _ => false)
    [[some "4", some "hello"], [some "7", some ""]]
    [ValidationRule.mk "0" VType.polarity [0, 2, 4] 0,
     ValidationRule.mk "1" VType.notEmpty [] 0]
    [] 2 [[some "4", some "hello"]] (by decide)

/-- C6 counterexample: a null cell is *not* always passed by `max_length`.
With bound 2 on column 0, the single row whose cell is null is removed
(`astype(str)` renders the null as "nan", length 3 > 2), so the returned
table is empty although the claim says null cells are never removed by
`max_length`. -/
theorem C6_counterexample :
    applyColumnValidations (fun _ => false) [[(none : Option String)]]
      [ValidationRule.mk "0" VType.maxLength [] 2] [] 1 = some [] ∧
    ([[(none : Option String)]] : List (List (Option String))).length = 1 := by decide

/-- C6 (amended): for an active `max_length` rule (bound ≠ 0), a non-null
cell passes exactly when its stringified length is at most the bound; a null
cell is stringified to "nan" by `astype(str)` and therefore passes exactly
when the bound is at least 3 — a null cell IS removed by `max_length` when
the bound is 1 or 2 (though never counted in its `too_long` metric, whose
`invalid` count excludes nulls). -/
theorem C6_max_length_rule (dateOk : String → Bool) (df : List (List (Option String)))
    (j : ℕ) (name : String) (allowed : List ℤ) (bound : ℕ) (hb : bound ≠ 0)
    (i : ℕ) (hi : i < df.length) :
    ((ruleMask dateOk df j (ValidationRule.mk name VType.maxLength allowed bound)).getD
        i false = true ↔
      (match (df.getD i []).getD j none with
       | none => 3 ≤ bound
       | some s => s.length ≤ bound)) := by
  rw [show ruleMask dateOk df j ⟨name, VType.maxLength, allowed, bound⟩
    = (colCells df j).map (fun c => decide ((cellStr c).length ≤ bound))
    from by rw [ruleMask, if_neg hb]]
  have hcl : i < (colCells df j).length := by rw [colCells_length]; exact hi
  rw [getD_map _ false none (colCells df j) i hcl, colCells_getD df j i hi]
  cases hcell : (df.getD i []).getD j none with
  | none => simp [cellStr, show ("nan" : String).length = 3 from rfl]
  | some s => simp [cellStr]

/-- Witness for C6 (amended) at a concrete non-null cell within the bound. -/
theorem C6_max_length_rule_witness :
    (ruleMask (fun _ => false) [[some "ab"]] 0
      (ValidationRule.mk "0" VType.maxLength [] 5)).getD 0 false = true :=
  (C6_max_length_rule (fun _ => false) [[some "ab"]] 0 "0" [] 5 (by decide) 0
    (by decide)).mpr (by exact (by decide : ("ab" : String).length ≤ 5))

/-!  `run_manual_labeling_job` (`label_service.py` lines 283–353).

The labeled file the job persists is the loaded table after annotation
application (and the optional `stop_early` filter); the target column is
column 0.  Since the CSV is loaded with `header=None`, a non-degenerate table
has column 0 already, so the `if target_col_idx not in df.columns`
initialization to `-1` never fires: un-annotated rows keep whatever the
original first column held.  A raw cell here is an integer or a string
(`PyCell`); Python compares string cells to `-1` as simply unequal, which the
`stop_early` filter below mirrors.  `int(a["row_index"])` must pass
`0 <= idx < len(df)` to take effect, so row indices are modelled as `ℕ` with
the upper-bound guard. -/

inductive PyCell
  | int (z : ℤ)
  | str (s : String)
deriving DecidableEq

/-- The annotation loop: `df.iloc[idx, 0] = int(a["label"])` for each
annotation whose row index is in range. -/
def applyAnnotations (df : List (List PyCell)) (anns : List (ℕ × ℤ)) :
    List (List PyCell) :=
  anns.foldl
    (fun d a =>
      if a.1 < d.length then d.set a.1 ((d.getD a.1 []).set 0 (PyCell.int a.2)) else d)
    df

/-- The table written out by `run_manual_labeling_job`: annotations applied,
then (with `stop_early`) only rows whose target cell differs from `-1`. -/
def manualLabelResult (df : List (List PyCell)) (anns : List (ℕ × ℤ))
    (stopEarly : Bool) : List (List PyCell) :=
  if stopEarly then
    (applyAnnotations df anns).filter
      (fun row => decide (row.getD 0 (PyCell.int (-1)) ≠ PyCell.int (-1)))
  else applyAnnotations df anns

/-- The tri-valued label domain {0, 2, 4}. -/
def triValued (z : ℤ) : Prop := z = 0 ∨ z = 2 ∨ z = 4

theorem labelNaiveText_triValued (m : List (String × List String)) (t : String) :
    triValued (labelNaiveText m t) := by
  unfold labelNaiveText
  cases pyMax (naiveScores m t) with
  | none => exact Or.inr (Or.inl rfl)
  | some p =>
    obtain ⟨lbl, v⟩ := p
    show triValued (if v = 0 then (2 : ℤ) else polarityOfName lbl)
    by_cases hv : v = 0
    · rw [if_pos hv]; exact Or.inr (Or.inl rfl)
    · rw [if_neg hv]
      unfold polarityOfName triValued
      split_ifs
      · exact Or.inr (Or.inr rfl)
      · exact Or.inl rfl
      · exact Or.inr (Or.inl rfl)

theorem clusterLabelOf_triValued (u : List ℤ) (c : ℤ) : triValued (clusterLabelOf u c) := by
  unfold clusterLabelOf triValued
  split_ifs <;> simp

theorem applyAnnotations_triValued (anns : List (ℕ × ℤ)) :
    ∀ df : List (List PyCell),
      (∀ a ∈ anns, triValued a.2) →
      (∀ row ∈ df, ∃ z : ℤ, row.getD 0 (PyCell.int (-1)) = PyCell.int z ∧ triValued z) →
      ∀ row ∈ applyAnnotations df anns,
        ∃ z : ℤ, row.getD 0 (PyCell.int (-1)) = PyCell.int z ∧ triValued z := by
  induction anns with
  | nil => intro df _ hdf row hrow; exact hdf row hrow
  | cons a rest ih =>
    intro df hanns hdf
    unfold applyAnnotations
    rw [List.foldl_cons]
    have hstep : ∀ row ∈ (if a.1 < df.length then
        df.set a.1 ((df.getD a.1 []).set 0 (PyCell.int a.2)) else df),
        ∃ z : ℤ, row.getD 0 (PyCell.int (-1)) = PyCell.int z ∧ triValued z := by
      by_cases hidx : a.1 < df.length
      · rw [if_pos hidx]
        intro row hrow
        rcases List.mem_or_eq_of_mem_set hrow with h | h
        · exact hdf row h
        · subst h
          have hsrc : df.getD a.1 [] ∈ df := by
            rw [List.getD_eq_getElem df [] hidx]
            exact List.getElem_mem hidx
          obtain ⟨z, hz, htri⟩ := hdf _ hsrc
          have hne : df.getD a.1 [] ≠ [] := by
            intro hcon
            rw [hcon] at hz
            simp only [List.getD] at hz
            have : (-1 : ℤ) = z := PyCell.int.inj (by simpa using hz)
            rw [← this] at htri
            rcases htri with h | h | h <;> simp at h
          cases hrow2 : df.getD a.1 [] with
          | nil => exact absurd hrow2 hne
          | cons c0 crest =>
            exact ⟨a.2, rfl, hanns a (List.mem_cons_self a rest)⟩
      · rw [if_neg hidx]
        exact hdf
    exact ih _ (fun a' ha' => hanns a' (List.mem_cons_of_mem a ha')) hstep

/-- C4 (amended): the keyword path and the clustering path always persist
target values in {0, 2, 4} (first two conjuncts).  The manual path persists
annotation labels verbatim and leaves un-annotated rows' original
first-column values untouched, so its persisted target column is tri-valued
exactly under the extra hypotheses that every annotation label is in
{0, 2, 4} and every original first-column value already is (third conjunct);
without them the invariant fails — see the counterexample. -/
theorem C4_labeling_target_domain
    (df' : List (List (Option String))) (m : List (String × List String)) (tIdx : ℕ)
    (xs : List ℤ)
    (df : List (List PyCell)) (anns : List (ℕ × ℤ)) (stopEarly : Bool)
    (hanns : ∀ a ∈ anns, triValued a.2)
    (hdf : ∀ row ∈ df, ∃ z : ℤ, row.getD 0 (PyCell.int (-1)) = PyCell.int z ∧ triValued z) :
    (∀ lbl ∈ labelNaiveDf df' m tIdx, triValued lbl) ∧
    (∀ lbl ∈ mapClustersToLabels xs, triValued lbl) ∧
    (∀ row ∈ manualLabelResult df anns stopEarly,
      ∃ z : ℤ, row.getD 0 (PyCell.int (-1)) = PyCell.int z ∧ triValued z) := by
  refine ⟨?_, ?_, ?_⟩
  · intro lbl hlbl
    unfold labelNaiveDf at hlbl
    rw [List.mem_map] at hlbl
    obtain ⟨row, _, rfl⟩ := hlbl
    exact labelNaiveText_triValued m _
  · intro lbl hlbl
    unfold mapClustersToLabels at hlbl
    rw [List.mem_map] at hlbl
    obtain ⟨c, _, rfl⟩ := hlbl
    exact clusterLabelOf_triValued _ c
  · intro row hrow
    unfold manualLabelResult at hrow
    have hbase := applyAnnotations_triValued anns df hanns hdf
    by_cases hse : stopEarly = true
    · rw [if_pos hse] at hrow
      exact hbase row (List.mem_of_mem_filter hrow)
    · rw [if_neg hse] at hrow
      exact hbase row hrow

/-- Witness for C4 (amended) at concrete inputs. -/
theorem C4_labeling_target_domain_witness :
    (∀ lbl ∈ labelNaiveDf [[some "i love it"]] [("pos", ["love"])] 0, triValued lbl) ∧
    (∀ lbl ∈ mapClustersToLabels [0, 1, -1], triValued lbl) ∧
    (∀ row ∈ manualLabelResult [[PyCell.int 0, PyCell.str "x"]] [(0, 4)] false,
      ∃ z : ℤ, row.getD 0 (PyCell.int (-1)) = PyCell.int z ∧ triValued z) :=
  C4_labeling_target_domain [[some "i love it"]] [("pos", ["love"])] 0 [0, 1, -1]
    [[PyCell.int 0, PyCell.str "x"]] [(0, 4)] false
    (by intro a ha; rcases List.mem_singleton.mp ha; exact Or.inr (Or.inr rfl))
    (by
      intro row hrow
      rcases List.mem_singleton.mp hrow with rfl
      exact ⟨0, rfl, Or.inl rfl⟩)

/-- C4 counterexample: the manual labeling path persists values outside
{0, 2, 4}.  With original first-column values 9 and a single annotation
labelling row 0 with 4 (`stop_early=False`), the persisted target column is
[4, 9]: the un-annotated row keeps its original value 9. -/
theorem C4_counterexample :
    (manualLabelResult [[PyCell.int 9], [PyCell.int 9]] [(0, 4)] false).map
      (fun r => r.getD 0 (PyCell.int (-1))) = [PyCell.int 4, PyCell.int 9] ∧
    ¬ triValued 9 := by
  constructor
  · decide
  · intro h
    rcases h with h | h | h <;> simp at h
